import Mathlib

/-!
Verification development for the Athena Obsidian plugin
(`src/main.ts`).  The TypeScript source is shallowly embedded: strings
are lists of characters, the Obsidian vault is a pure value, every
`async` vault operation becomes a state-passing function, and the
regex-based scanners of the command executor are implemented as
deterministic character-list scanners that reproduce the behaviour of
the JavaScript regular expressions on the fixed patterns the source
uses.  UI rendering, network transport and timing (`delay`, `Notice`)
have no observable effect on the verified data and are omitted.
-/

namespace Athena

/-- Character strings, embedded as lists of characters
(JavaScript strings; `String.prototype` operations become list
functions). -/
abbrev Str := List Char

/-- Coerce a Lean string literal to the embedding. -/
def str (s : String) : Str := s.data

/-- JavaScript `\s` (ASCII part): the whitespace characters relevant to
the plugin's regexes. -/
def isWsChar (c : Char) : Bool :=
  c == ' ' || c == '\t' || c == '\n' || c == '\r' || c == '\x0b' || c == '\x0c'

/-- JavaScript `.` without the `s` flag: any char except line terminators. -/
def dotOk (c : Char) : Bool :=
  !(c == '\n' || c == '\r' || c == ' ' || c == ' ')

/-- JavaScript `\w`. -/
def isWordChar (c : Char) : Bool :=
  c.isAlphanum || c == '_'

/-- `s.toLowerCase()`. -/
def lowerStr (s : Str) : Str := s.map Char.toLower

/-- `s.trim()`. -/
def jsTrim (s : Str) : Str :=
  ((s.dropWhile isWsChar).reverse.dropWhile isWsChar).reverse

/-- `pre` is a prefix of `s` (case-sensitive). -/
def hasPrefixB : Str → Str → Bool
  | _, [] => true
  | [], _ :: _ => false
  | c :: cs, d :: ds => c == d && hasPrefixB cs ds

/-- `pre` is a prefix of `s` up to ASCII case (used for the
case-insensitive regex literals). -/
def hasPrefixCI : Str → Str → Bool
  | _, [] => true
  | [], _ :: _ => false
  | c :: cs, d :: ds => c.toLower == d.toLower && hasPrefixCI cs ds

/-- `s.includes(t)` (case-sensitive). -/
def strHas : Str → Str → Bool
  | [], t => t.isEmpty
  | s@(_ :: rest), t => hasPrefixB s t || strHas rest t

/-- `s.endsWith(t)`. -/
def endsWithStr (s t : Str) : Bool := hasPrefixB s.reverse t.reverse

/-- Split a string at a separator character, keeping empty fragments
(JavaScript `s.split('/')`). -/
def splitChar (sep : Char) : Str → List Str
  | [] => [[]]
  | c :: rest =>
    let r := splitChar sep rest
    if c == sep then [] :: r
    else match r with
      | [] => [[c]]
      | w :: ws => (c :: w) :: ws

/-- Maximal non-whitespace runs (JavaScript `s.split(/\s+/)`; the empty
fragments the JS call can produce at the ends are always removed by the
length filter applied right after it in the source). -/
def splitWsRuns : Str → List Str
  | [] => []
  | c :: rest =>
    if isWsChar c then splitWsRuns rest
    else
      let r := splitWsRuns rest
      if rest.head?.any isWsChar then [c] :: r
      else match r with
        | [] => [[c]]
        | w :: ws => (c :: w) :: ws

/-- First occurrence removal: `s.replace(sub, '')` with a plain-string
pattern, generalised to an arbitrary replacement. -/
def replaceFirst (s sub repl : Str) : Str :=
  match s with
  | [] => if sub.isEmpty then repl else []
  | c :: rest =>
    if hasPrefixB s sub then repl ++ s.drop sub.length
    else c :: replaceFirst rest sub repl

/-- Deduplicate keeping first occurrences (JavaScript `new Set(xs)`
iteration order). -/
def dedupKeepFirst (l : List Str) : List Str :=
  go l []
where
  go : List Str → List Str → List Str
    | [], _ => []
    | x :: xs, seen =>
      if seen.contains x then go xs seen
      else x :: go xs (x :: seen)

/-- `xs.join(sep)`. -/
def joinSep (sep : Str) : List Str → Str
  | [] => []
  | [x] => x
  | x :: xs => x ++ sep ++ joinSep sep xs

/-- The name component of a path (after the last `/`). -/
def nameOf (p : Str) : Str :=
  (p.reverse.takeWhile (fun c => !(c == '/'))).reverse

/-- The parent path (before the last `/`; empty for root-level paths,
matching `path.substring(0, path.lastIndexOf('/'))`). -/
def parentOf (p : Str) : Str :=
  ((p.reverse.dropWhile (fun c => !(c == '/'))).drop 1).reverse

/-- Obsidian `file.basename`: the name without its final extension. -/
def baseNameOf (p : Str) : Str :=
  let n := nameOf p
  if n.contains '.' then ((n.reverse.dropWhile (fun c => !(c == '.'))).drop 1).reverse
  else n

/-- Obsidian `file.extension`. -/
def extOf (p : Str) : Str :=
  let n := nameOf p
  if n.contains '.' then (n.reverse.takeWhile (fun c => !(c == '.'))).reverse
  else []

/-- `q` equals `p` or lies strictly inside folder `p`. -/
def underOrEqB (p q : Str) : Bool :=
  q == p || hasPrefixB q (p ++ ['/'])

/-- `q` is a direct child path of folder `p`. -/
def isDirectChildB (p q : Str) : Bool :=
  hasPrefixB q (p ++ ['/']) &&
    (let n := q.drop (p.length + 1); !n.isEmpty && !n.contains '/')

/-! ## The vault model (the Vault Store capability)

A markdown vault is a list of files (path, content, cached metadata
tags and front-matter tags, modification time) together with a list of
folder paths.  `getAbstractFileByPath`, `getMarkdownFiles`,
`createFolder`, `create`, `rename` and `trashFile` are modelled on
their Obsidian contracts: not-found / already-exists conditions throw,
which the embedding renders as `Option`/`Except` failures. -/

structure VFile where
  path : Str
  content : Str
  mtags : List Str
  fmtags : List Str
  mtime : Nat
deriving DecidableEq, Repr

structure Vault where
  files : List VFile
  folders : List Str
deriving DecidableEq, Repr

inductive VEntry where
  | file (f : VFile)
  | folder (p : Str)
deriving DecidableEq, Repr

def VEntry.path : VEntry → Str
  | .file f => f.path
  | .folder p => p

def Vault.getAbstractFileByPath (v : Vault) (p : Str) : Option VEntry :=
  match v.files.find? (fun f => f.path == p) with
  | some f => some (.file f)
  | none => (v.folders.find? (fun q => q == p)).map .folder

def Vault.getMarkdownFiles (v : Vault) : List VFile :=
  v.files.filter (fun f => endsWithStr f.path (str ".md"))

def Vault.childrenOf (v : Vault) (p : Str) : List VEntry :=
  (v.files.filter (fun f => isDirectChildB p f.path)).map .file ++
    (v.folders.filter (fun q => isDirectChildB p q)).map .folder

/-- Primitive `vault.createFolder(path)`: fails if the path exists or
the parent folder is missing. -/
def Vault.createFolderPrim (v : Vault) (p : Str) : Except Unit Vault :=
  if (v.getAbstractFileByPath p).isSome then .error ()
  else if parentOf p == [] || v.folders.contains (parentOf p) then
    .ok { v with folders := v.folders ++ [p] }
  else .error ()

/-- Primitive `vault.create(path, content)`: fails if the path exists
or the parent folder is missing. -/
def Vault.createFilePrim (v : Vault) (p content : Str) : Except Unit Vault :=
  if (v.getAbstractFileByPath p).isSome then .error ()
  else if parentOf p == [] || v.folders.contains (parentOf p) then
    .ok { v with files := v.files ++ [⟨p, content, [], [], 0⟩] }
  else .error ()

/-- Primitive `vault.rename(entry, newPath)`: fails if the destination
exists or its parent folder is missing; renaming a folder carries its
subtree along. -/
def Vault.renamePrim (v : Vault) (e : VEntry) (newPath : Str) : Except Unit Vault :=
  if (v.getAbstractFileByPath e.path).isNone then .error ()
  else if (v.getAbstractFileByPath newPath).isSome then .error ()
  else if !(parentOf newPath == [] || v.folders.contains (parentOf newPath)) then .error ()
  else match e with
    | .file f =>
      let fs := v.files.map (fun g => if g.path == f.path then { g with path := newPath } else g)
      .ok { v with files := fs }
    | .folder p =>
      let fs := v.files.map (fun g =>
        if underOrEqB p g.path then { g with path := newPath ++ g.path.drop p.length } else g)
      let ds := v.folders.map (fun q => if underOrEqB p q then newPath ++ q.drop p.length else q)
      .ok { files := fs, folders := ds }

/-- Primitive `fileManager.trashFile(entry)`: removes a file, or a
folder together with everything below it; fails if the entry's path is
no longer present. -/
def Vault.trashEntry (v : Vault) (e : VEntry) : Option Vault :=
  match e with
  | .file f =>
    if v.files.any (fun g => g.path == f.path) then
      some { v with files := v.files.filter (fun g => !(g.path == f.path)) }
    else none
  | .folder p =>
    if v.folders.contains p then
      some { files := v.files.filter (fun g => !underOrEqB p g.path),
             folders := v.folders.filter (fun q => !underOrEqB p q) }
    else none

/-- `vault.read(file)` (pure in the model). -/
def Vault.readFile (_v : Vault) (f : VFile) : Str := f.content

/-- `vault.modify(file, data)`. -/
def Vault.modifyFile (v : Vault) (f : VFile) (data : Str) : Vault :=
  { v with files := v.files.map (fun g => if g.path == f.path then { g with content := data } else g) }

/-- Well-formedness: all entry paths (files and folders) are distinct. -/
def Vault.WF (v : Vault) : Prop :=
  (v.files.map VFile.path ++ v.folders).Nodup

/-! ## Plugin vault operations (`main.ts`, class methods) -/

/-- `path.trim().replace(/^\/+|\/+$/g, '')` from `createFolder`. -/
def cleanFolderPath (p : Str) : Str :=
  (((jsTrim p).dropWhile (fun c => c == '/')).reverse.dropWhile (fun c => c == '/')).reverse

/-- `/\.md$/` removal. -/
def stripMdSuffix (p : Str) : Str :=
  if endsWithStr p (str ".md") then p.take (p.length - 3) else p

/-- The `for (const part of parts)` loop of `createFolder`: walks the
path segments root-to-leaf, creating each missing one.  Besides the
success flag and the resulting vault it reports the list of folder
paths actually created, in creation order.  A primitive-create failure
re-checks existence (still absent in the pure model) and rethrows,
which the caller's catch converts into `false` with the mutations so
far kept. -/
def createFolderLoop : Vault → Str → List Str → Bool × Vault × List Str
  | v, _, [] => (true, v, [])
  | v, cur, part :: rest =>
    let cur2 := if cur.isEmpty then part else cur ++ '/' :: part
    if (v.getAbstractFileByPath cur2).isSome then createFolderLoop v cur2 rest
    else
      match v.createFolderPrim cur2 with
      | .ok v2 =>
        let r := createFolderLoop v2 cur2 rest
        (r.1, r.2.1, cur2 :: r.2.2)
      | .error _ => (false, v, [])

/-- `createFolder(path)`. -/
def createFolder (v : Vault) (p : Str) : Bool × Vault × List Str :=
  let c := cleanFolderPath p
  if c.isEmpty then (true, v, [])
  else
    match v.getAbstractFileByPath c with
    | some (.folder _) => (true, v, [])
    | some (.file _) => (false, v, [])
    | none => createFolderLoop v [] (splitChar '/' c)

/-- The successive `currentPath` values of the `createFolder` loop:
the root-to-leaf ancestor chain of a joined path. -/
def joinedPrefixes : Str → List Str → List Str
  | _, [] => []
  | cur, part :: rest =>
    let cur2 := if cur.isEmpty then part else cur ++ '/' :: part
    cur2 :: joinedPrefixes cur2 rest

/-- All ancestor paths (root-to-leaf) of a cleaned folder path. -/
def prefixesOf (c : Str) : List Str := joinedPrefixes [] (splitChar '/' c)

/-- `createNote(title, content)`; `lastIndexOf('/') > 0` is equivalent
to the parent path being non-empty. -/
def createNote (v : Vault) (title content : Str) : Option VFile × Vault :=
  let folderPath := parentOf title
  let v1 := if folderPath.isEmpty then v else (createFolder v folderPath).2.1
  let fileName := if endsWithStr title (str ".md") then title else title ++ str ".md"
  match v1.createFilePrim fileName content with
  | .ok v2 => (some ⟨fileName, content, [], [], 0⟩, v2)
  | .error _ => (none, v1)

/-- The name-resolution chain inlined in `moveNote`: direct path, path
with `.md` appended, case-insensitive exact basename, then
case-insensitive substring match in either direction. -/
def moveResolve (v : Vault) (notePath : Str) : Option VEntry :=
  match v.getAbstractFileByPath notePath with
  | some e => some e
  | none =>
    match v.getAbstractFileByPath (notePath ++ str ".md") with
    | some e => some e
    | none =>
      let basename := lowerStr (stripMdSuffix notePath)
      let allFiles := v.getMarkdownFiles
      match allFiles.find? (fun f => lowerStr (baseNameOf f.path) == basename) with
      | some f => some (.file f)
      | none =>
        (allFiles.find? (fun f =>
          strHas (lowerStr (baseNameOf f.path)) basename ||
            strHas basename (lowerStr (baseNameOf f.path)))).map .file

/-- `moveNote(notePath, newFolder)`. -/
def moveNote (v : Vault) (notePath newFolder : Str) : Bool × Vault :=
  match moveResolve v notePath with
  | some (.file f) =>
    let v1 := (createFolder v newFolder).2.1
    let newPath := newFolder ++ '/' :: nameOf f.path
    match v1.renamePrim (.file f) newPath with
    | .ok v2 => (true, v2)
    | .error _ => (false, v1)
  | _ => (false, v)

/-- `renameFile(oldPath, newName)`: resolution is a direct path lookup
only. -/
def renameFile (v : Vault) (oldPath newName : Str) : Bool × Vault :=
  match v.getAbstractFileByPath oldPath with
  | none => (false, v)
  | some e =>
    let parentPath := parentOf oldPath
    let newPath := if parentPath.isEmpty then newName else parentPath ++ '/' :: newName
    match v.renamePrim e newPath with
    | .ok v2 => (true, v2)
    | .error _ => (false, v)

/-- The name-resolution chain of `deleteFile`: direct path, path with
`.md` appended (only when the name does not already end in `.md`),
then case-insensitive exact basename; no substring step. -/
def deleteResolve (v : Vault) (p : Str) : Option VEntry :=
  match v.getAbstractFileByPath p with
  | some e => some e
  | none =>
    let step2 := if !endsWithStr p (str ".md") then v.getAbstractFileByPath (p ++ str ".md") else none
    match step2 with
    | some e => some e
    | none =>
      let basename := lowerStr (stripMdSuffix p)
      (v.getMarkdownFiles.find? (fun f => lowerStr (baseNameOf f.path) == basename)).map .file

/-- `deleteFile(path)`. -/
def deleteFile (v : Vault) (p : Str) : Bool × Vault :=
  match deleteResolve v p with
  | none => (false, v)
  | some e =>
    match v.trashEntry e with
    | some v2 => (true, v2)
    | none => (false, v)

/-- The `for (const child of [...folder.children])` loop of
`deleteFolder`: trashes file children (a throw aborts the loop with
the state reached so far) and recurses into folder children through
`f`, whose boolean result the source ignores. -/
def delKidsWith (f : Vault → Str → Bool × Vault) : Vault → List VEntry → Except Vault Vault
  | v, [] => .ok v
  | v, .file g :: rest =>
    match v.trashEntry (.file g) with
    | some v2 => delKidsWith f v2 rest
    | none => .error v
  | v, .folder q :: rest => delKidsWith f ((f v q).2) rest

/-- `deleteFolder(path, recursive)`, with explicit fuel for the
recursion into subfolders (the recursion depth is bounded by the
number of folders in the vault, so the fuel chosen in `deleteFolder`
below is never exhausted on well-formed vaults). -/
def delFolderGo : Nat → Vault → Str → Bool → Bool × Vault
  | 0, v, _, _ => (false, v)
  | Nat.succ fuel, v, p, recursive =>
    match v.getAbstractFileByPath p with
    | none => (false, v)
    | some (.file _) => (false, v)
    | some (.folder _) =>
      let kids := v.childrenOf p
      if !kids.isEmpty && !recursive then (false, v)
      else
        match delKidsWith (fun w q => delFolderGo fuel w q true) v kids with
        | .error w => (false, w)
        | .ok w =>
          match w.trashEntry (.folder p) with
          | some w2 => (true, w2)
          | none => (false, w)

/-- `deleteFolder(path, recursive = false)`. -/
def deleteFolder (v : Vault) (p : Str) (recursive : Bool) : Bool × Vault :=
  delFolderGo (v.folders.length + 1) v p recursive

/-- The vault state carried by either outcome of the child loop. -/
def exVault : Except Vault Vault → Vault
  | .ok v => v
  | .error v => v

/-- A recursive-step contract for the child loop: the step only
removes entries, and removes only entries at or below its target
path. -/
def ShrinkPreserve (f : Vault → Str → Bool × Vault) : Prop :=
  ∀ w q, ((f w q).2.files.Sublist w.files) ∧ ((f w q).2.folders.Sublist w.folders) ∧
    (∀ x ∈ w.files, underOrEqB q x.path = false → x ∈ (f w q).2.files) ∧
    (∀ d ∈ w.folders, underOrEqB q d = false → d ∈ (f w q).2.folders)

/-- `appendToNote(notePath, content)`. -/
def appendToNote (v : Vault) (notePath content : Str) : Bool × Vault :=
  let e1 :=
    match v.getAbstractFileByPath notePath with
    | some e => some e
    | none => v.getAbstractFileByPath (notePath ++ str ".md")
  match e1 with
  | some (.file f) =>
    let existing := v.readFile f
    (true, v.modifyFile f (existing ++ str "\n\n" ++ content))
  | _ => (false, v)

/-! ## Note index and relevance search (`searchNotesIndex`) -/

structure NoteRec where
  path : Str
  title : Str
  tags : List Str
  headings : List Str
  preview : Str
deriving DecidableEq, Repr

structure SearchRes where
  path : Str
  title : Str
  score : Nat
deriving DecidableEq, Repr

/-- `query.toLowerCase().split(/\s+/).filter(w => w.length > 2)`. -/
def queryTokens (query : Str) : List Str :=
  (splitWsRuns (lowerStr query)).filter (fun w => 2 < w.length)

/-- Score contribution of one query token for one indexed note. -/
def tokenScore (n : NoteRec) (w : Str) : Nat :=
  (if strHas (lowerStr n.title) w then 10 else 0) +
  (if n.tags.any (fun t => strHas (lowerStr t) w) then 8 else 0) +
  (if n.headings.any (fun h => strHas (lowerStr h) w) then 5 else 0) +
  (if strHas (lowerStr n.preview) w then 2 else 0)

/-- The `for (const word of queryWords)` accumulation. -/
def noteScore (ws : List Str) (n : NoteRec) : Nat :=
  ws.foldl (fun acc w => acc + tokenScore n w) 0

/-- The `results` array: notes with a positive score, in index order. -/
def scoredResults (idx : List NoteRec) (query : Str) : List SearchRes :=
  idx.filterMap (fun n =>
    let s := noteScore (queryTokens query) n
    if 0 < s then some ⟨n.path, n.title, s⟩ else none)

/-- Stable insertion preserving descending score order; an element is
placed before the first earlier-sorted element whose score does not
exceed it, so equal scores keep their original relative order.  This
realises `results.sort((a, b) => b.score - a.score)`: ECMAScript
`Array.prototype.sort` is stable, and a stable descending sort is
uniquely determined. -/
def insertScored (x : SearchRes) : List SearchRes → List SearchRes
  | [] => [x]
  | y :: ys => if y.score ≤ x.score then x :: y :: ys else y :: insertScored x ys

def sortByScoreDesc (l : List SearchRes) : List SearchRes := l.foldr insertScored []

/-- `searchNotesIndex(query)` over a given notes index. -/
def searchNotesIndex (idx : List NoteRec) (query : Str) : List SearchRes :=
  (sortByScoreDesc (scoredResults idx query)).take 5

/-! ## Session/usage gate (`checkDailyLimit` and the send handler) -/

structure UsageSettings where
  isPremiumUser : Bool
  messagesUsed : Nat
deriving DecidableEq, Repr

/-- `checkDailyLimit()`: premium short-circuits to unlimited
(`remaining = -1`); free users are compared against the fixed cap 9. -/
def checkDailyLimit (s : UsageSettings) : Bool × Int :=
  if s.isPremiumUser then (true, -1)
  else (decide (s.messagesUsed < 9), max 0 (9 - (s.messagesUsed : Int)))

/-- Observable outcome of the guard sequence at the top of
`sendButton.onclick`: an empty message or an in-flight request is
ignored; a failed daily-limit check renders a static limit message and
returns before any remote call; otherwise the pipeline proceeds to the
remote exchange. -/
inductive SendGateResult where
  | ignored
  | limitBlocked (display : Str)
  | proceed
deriving DecidableEq, Repr

def sendGate (message : Str) (isWaitingForResponse : Bool) (s : UsageSettings) : SendGateResult :=
  if (jsTrim message).isEmpty then .ignored
  else if isWaitingForResponse then .ignored
  else if !(checkDailyLimit s).1 then .limitBlocked (str "Daily limit reached")
  else .proceed

def contactsRemoteService : SendGateResult → Bool
  | .proceed => true
  | _ => false

/-! ## Content cleaning (`content.replace(/^---[\s\S]*?---\n*\/m, '')
.replace(/\n{3,}/g, '\n\n').trim()`) -/

/-- Distance to the closing `---` (shortest, as `[\s\S]*?` is lazy). -/
def findCloseDashes : Str → Option Nat
  | [] => none
  | s@(_ :: rest) =>
    if hasPrefixB s (str "---") then some 0
    else (findCloseDashes rest).map (· + 1)

/-- Remove the first front-matter block: the `m` flag anchors `^` at
any line start, the match is `---`, a lazy body, `---`, then greedy
`\n*`; only the first match is replaced. -/
def stripFmGo : Bool → Str → Str
  | _, [] => []
  | atLineStart, s@(c :: rest) =>
    if atLineStart && hasPrefixB s (str "---") then
      match findCloseDashes (s.drop 3) with
      | some k =>
        let after := s.drop (3 + k + 3)
        after.drop (after.takeWhile (fun d => d == '\n')).length
      | none => c :: stripFmGo (c == '\n' || c == '\r') rest
    else c :: stripFmGo (c == '\n' || c == '\r') rest

def stripFrontmatter (s : Str) : Str := stripFmGo true s

/-- `\n{3,}` → `"\n\n"` (greedy runs, global). -/
def collapseNlGo (pending : Nat) : Str → Str
  | [] => if 3 ≤ pending then ['\n', '\n'] else List.replicate pending '\n'
  | c :: rest =>
    if c == '\n' then collapseNlGo (pending + 1) rest
    else (if 3 ≤ pending then ['\n', '\n'] else List.replicate pending '\n') ++
      c :: collapseNlGo 0 rest

def collapseNl (s : Str) : Str := collapseNlGo 0 s

/-- The cleaned note body used by every context builder. -/
def cleanContent (content : Str) : Str :=
  jsTrim (collapseNl (stripFrontmatter content))

/-! ## Context assembly (`getTaggedNotesContext`, `getCurrentNoteContext`,
the hybrid context logic of `getChatbotResponse`)

The three regex extraction passes that turn the raw user message into
a list of mention names are abstracted into the parameter `mentions`:
the properties verified below depend only on the extracted list, never
on how it was scraped from the message. -/

/-- The merged tag list of a file (`metadata.tags` plus normalised
front-matter tags), rendered as in the source: deduplicated and
comma-joined. -/
def tagLine (f : VFile) : Str :=
  let tags := f.mtags ++ f.fmtags
  if tags.isEmpty then []
  else str "Tags: " ++ joinSep (str ", ") (dedupKeepFirst tags) ++ str "\n"

/-- The matching predicate of the `files.find(...)` in
`getTaggedNotesContext`: basename equals the mention
case-insensitively, or contains it as a case-insensitive substring. -/
def mentionPred (mention : Str) (f : VFile) : Bool :=
  lowerStr (baseNameOf f.path) == lowerStr mention ||
    strHas (lowerStr (baseNameOf f.path)) (lowerStr mention)

/-- The `files.find(...)` of `getTaggedNotesContext`: a single scan
with the disjunctive predicate above. -/
def findMentionFile (files : List VFile) (mention : Str) : Option VFile :=
  files.find? (mentionPred mention)

/-- One per-mention block of the referenced-notes section (vault reads
are pure in the model, so the read-failure branch is unreachable). -/
def mentionBlock (v : Vault) (m : Str) : Str :=
  match findMentionFile v.getMarkdownFiles m with
  | some f =>
    str "--- @" ++ baseNameOf f.path ++ str " (FULL CONTENT) ---\n" ++ tagLine f ++
      str "Content:\n" ++ cleanContent f.content ++ str "\n\n"
  | none => str "--- @" ++ m ++ str " ---\nNo note found with this name.\n\n"

/-- `getTaggedNotesContext` over the extracted mention list. -/
def getTaggedNotesContext (v : Vault) (mentions : List Str) : Str :=
  if mentions.isEmpty then []
  else
    let uniq := dedupKeepFirst mentions
    str "\n\n=== SPECIFICALLY REFERENCED NOTES (FULL CONTENT) ===\n" ++
      str "User wants to see these notes: " ++ joinSep (str ", ") uniq ++ str "\n\n" ++
      (uniq.map (mentionBlock v)).flatten ++
      str "=== END OF REFERENCED NOTES ===\n\n"

/-- `getCurrentNoteContext` over the active file (if any). -/
def getCurrentNoteContext (active : Option VFile) : Str :=
  match active with
  | none => []
  | some f =>
    if !(extOf f.path == str "md") then []
    else
      str "\n\n=== CURRENTLY OPEN NOTE ===\n" ++ str "Title: " ++ baseNameOf f.path ++ str "\n" ++
        tagLine f ++ str "Content:\n" ++ cleanContent f.content ++ str "\n" ++
        str "=== END OF CURRENT NOTE ===\n\n"

/-- One search-result block (unreadable or non-file paths are
skipped, contributing nothing). -/
def searchResultBlock (v : Vault) (r : SearchRes) : Str :=
  match v.getAbstractFileByPath r.path with
  | some (.file f) =>
    let clean := cleanContent f.content
    str "--- " ++ r.title ++ str " ---\n" ++ clean.take 500 ++
      (if 500 < clean.length then str "..." else []) ++ str "\n\n"
  | _ => []

/-- The search-based context of `getChatbotResponse`: top 3 relevance
results, each truncated to 500 characters. -/
def searchBasedContext (v : Vault) (idx : List NoteRec) (message : Str) : Str :=
  let relevant := (searchNotesIndex idx message).take 3
  if relevant.isEmpty then []
  else str "\n\n=== RELEVANT NOTES ===\n" ++ (relevant.map (searchResultBlock v)).flatten

structure HybridContexts where
  tagged : Str
  current : Str
  searchBased : Str
  recent : Str
deriving DecidableEq, Repr

/-- The hybrid context selection of `getChatbotResponse`: search-based
context is built only when no mention context exists, and the
recent-notes fallback (`getVaultNotesContext`, whose value depends on
the startup cache and is passed in as `recentRaw`) only when all three
other sources are empty. -/
def hybridContexts (v : Vault) (idx : List NoteRec) (mentions : List Str)
    (active : Option VFile) (message : Str) (recentRaw : Str) : HybridContexts :=
  let tagged := getTaggedNotesContext v mentions
  let current := getCurrentNoteContext active
  let searchB := if tagged.isEmpty then searchBasedContext v idx message else []
  let recent := if tagged.isEmpty && searchB.isEmpty && current.isEmpty then recentRaw else []
  ⟨tagged, current, searchB, recent⟩

/-- `allNotesContext` (line 3209): the four context sources
concatenated in fixed order. -/
def allNotesContext (h : HybridContexts) : Str :=
  h.tagged ++ h.current ++ h.searchBased ++ h.recent

/-- The assembled prompt; the vault-structure and conversation blocks
are opaque here (their internal layout is outside the verified
claims). -/
def enhancedPrompt (vaultStructureContext : Str) (h : HybridContexts)
    (conversationContext message : Str) : Str :=
  vaultStructureContext ++ allNotesContext h ++ conversationContext ++
    str "\n\nCurrent Question: " ++ message ++
    str "\n\nPlease provide a helpful, thoughtful response."

/-! ## Conversation summarizer (`summarizeOlderMessages`) -/

inductive ChatRole where
  | user
  | assistant
deriving DecidableEq, Repr

structure ChatTurn where
  role : ChatRole
  content : Str
deriving DecidableEq, Repr

structure ChatState where
  conversationHistory : List ChatTurn
  conversationSummary : Str
  summaryCyclesRemaining : Int
  isContextFull : Bool
deriving DecidableEq, Repr

/-- Character class `[\w\s-]`. -/
def mwChar (c : Char) : Bool := isWordChar c || isWsChar c || c == '-'

/-- One match attempt of `/@[\w\s-]+|\[\[[\w\s-]+\]\]/` at the current
position, returning the matched text and the rest. -/
def mentionPatAt (s : Str) : Option (Str × Str) :=
  match s with
  | '@' :: rest =>
    let run := rest.takeWhile mwChar
    if run.isEmpty then none else some ('@' :: run, rest.drop run.length)
  | '[' :: '[' :: rest =>
    let run := rest.takeWhile mwChar
    if run.isEmpty then none
    else if hasPrefixB (rest.drop run.length) (str "]]") then
      some ('[' :: '[' :: (run ++ str "]]"), rest.drop (run.length + 2))
    else none
  | _ => none

/-- Generic `matchAll`-style scan: leftmost matches, continuing after
each match, advancing one character on failure (all the patterns used
here only produce non-empty matches). -/
def matchAllWith {α : Type} (matchAt : Str → Option (α × Str)) : Nat → Str → List α
  | 0, _ => []
  | _, [] => []
  | Nat.succ fuel, s@(_ :: rest) =>
    match matchAt s with
    | some (m, rest2) => m :: matchAllWith matchAt fuel rest2
    | none => matchAllWith matchAt fuel rest

def extractMentionTokens (content : Str) : List Str :=
  matchAllWith mentionPatAt content.length content

/-- `LIT ([^→]+) → ([^\n]+)` after a literal: the first capture is a
greedy arrow-free run backtracked to leave the literal `" → "`, the
second a greedy non-newline run.  Returns the full matched text and
the rest. -/
def arrowPairAfter (lit s : Str) : Option (Str × Str) :=
  if hasPrefixB s lit then
    let t := s.drop lit.length
    let pre := t.takeWhile (fun c => !(c == '→'))
    if pre.length < 2 then none
    else if !(t.drop pre.length).head?.any (fun c => c == '→') then none
    else if !(pre.getLast?.any (fun c => c == ' ')) then none
    else
      let t2 := t.drop (pre.length + 1)
      match t2 with
      | ' ' :: t3 =>
        let run2 := t3.takeWhile (fun c => !(c == '\n'))
        if run2.isEmpty then none
        else some (lit ++ pre ++ '→' :: ' ' :: run2, t3.drop run2.length)
      | _ => none
  else none

/-- `LIT [[([^\]]+)]]`: greedy bracket-free run closed by `]]`. -/
def wikiAfter (lit : Str) (s : Str) : Option (Str × Str) :=
  if hasPrefixB s lit then
    let t := s.drop lit.length
    let run := t.takeWhile (fun c => !(c == ']'))
    if run.isEmpty then none
    else if hasPrefixB (t.drop run.length) (str "]]") then
      some (lit ++ run ++ str "]]", t.drop (run.length + 2))
    else none
  else none

/-- `LIT ([^\n]+)`: greedy non-newline run. -/
def lineAfter (lit : Str) (s : Str) : Option (Str × Str) :=
  if hasPrefixB s lit then
    let t := s.drop lit.length
    let run := t.takeWhile (fun c => !(c == '\n'))
    if run.isEmpty then none else some (lit ++ run, t.drop run.length)
  else none

/-- One alternative of the action-extraction regex of
`summarizeOlderMessages` (`✅ Created note: [[...]] | 📦 Moved: ... →
... | 🗑️ Deleted: ... | ✏️ Renamed: ... → ... | 📝 Added to:
[[...]]`), tried in source order. -/
def actionPatAt (s : Str) : Option (Str × Str) :=
  match wikiAfter (str "✅ Created note: [[") s with
  | some r => some r
  | none =>
  match arrowPairAfter (str "📦 Moved: ") s with
  | some r => some r
  | none =>
  match lineAfter (str "🗑️ Deleted: ") s with
  | some r => some r
  | none =>
  match arrowPairAfter (str "✏️ Renamed: ") s with
  | some r => some r
  | none => wikiAfter (str "📝 Added to: [[") s

def extractActionTokens (content : Str) : List Str :=
  matchAllWith actionPatAt content.length content

/-- `Set.add` insertion order. -/
def addUnique (l : List Str) (x : Str) : List Str :=
  if l.contains x then l else l ++ [x]

/-- The summary-building loop of `summarizeOlderMessages`: collects
deduplicated mention tokens and first question lines from user turns
and action tokens from assistant turns. -/
def summaryScan (toSummarize : List ChatTurn) : List Str × List Str × List Str :=
  toSummarize.foldl
    (fun acc msg =>
      match msg.role with
      | .user =>
        let notes := (extractMentionTokens msg.content).foldl addUnique acc.1
        let firstLine := (msg.content.takeWhile (fun c => !(c == '\n'))).take 100
        (notes, acc.2.1, acc.2.2 ++ [str "Q: " ++ firstLine])
      | .assistant => (acc.1, acc.2.1 ++ extractActionTokens msg.content, acc.2.2))
    ([], [], [])

/-- The structured `newSummary` string. -/
def buildNewSummary (toSummarize : List ChatTurn) : Str :=
  let scan := summaryScan toSummarize
  (if scan.1.isEmpty then []
   else str "Notes discussed: " ++ joinSep (str ", ") (scan.1.take 10) ++ str ". ") ++
  (if scan.2.1.isEmpty then []
   else str "Actions: " ++ joinSep (str "; ") (scan.2.1.take 10) ++ str ". ") ++
  (if scan.2.2.isEmpty then []
   else str "Key questions: " ++ joinSep (str " | ") (scan.2.2.take 5))

/-- `conversationSummary ? summary || new : new`. -/
def appendedSummary (old new : Str) : Str :=
  if old.isEmpty then new else old ++ str " || " ++ new

/-- The 3000-character cap: when exceeded, keep the most recent 3000
characters behind a `"..."` marker. -/
def trimSummary (s : Str) : Str :=
  if 3000 < s.length then str "..." ++ s.drop (s.length - 3000) else s

/-- `summarizeOlderMessages()`: keeps the last 15 turns verbatim,
appends a digest of the older prefix to the rolling summary (with a
`" || "` separator), right-truncates the summary to its last 3000
characters behind a `"..."` marker when it exceeds 3000, and counts
down the cycle budget. -/
def summarizeOlderMessages (st : ChatState) : ChatState :=
  if st.conversationHistory.length < 15 then st
  else
    let toSummarize := st.conversationHistory.take (st.conversationHistory.length - 15)
    let toKeep := st.conversationHistory.drop (st.conversationHistory.length - 15)
    let trimmed := trimSummary (appendedSummary st.conversationSummary (buildNewSummary toSummarize))
    let cycles := st.summaryCyclesRemaining - 1
    { conversationHistory := toKeep,
      conversationSummary := trimmed,
      summaryCyclesRemaining := cycles,
      isContextFull := if cycles ≤ 0 then true else st.isContextFull }

/-! ## Command parser/executor (`parseAndCreateNotes`)

The seven block regexes and the five normalisation replacements are
implemented as deterministic scanners with explicit backtracking where
the JavaScript engine backtracks (greedy `\s*` before a lazy capture,
the optional `recursive` group); the marker literals are matched
case-insensitively as under the `i` flag, and `.` crosses newlines
exactly where the source uses the `s` flag or `[\s\S]`. -/

def dq : Char := Char.ofNat 34

def sq : Char := Char.ofNat 39

/-- `\s*LIT` where `LIT` starts with a non-whitespace character, so
the greedy whitespace run is forced to its maximum. -/
def wsLit (lit : Str) (t : Str) : Option Str :=
  let t2 := t.dropWhile isWsChar
  if hasPrefixCI t2 lit then some (t2.drop lit.length) else none

/-- Lazy one-or-more capture (`(.+?)` / with `allowNl` the `s`-flag
variant): the shortest non-empty prefix whose remainder satisfies the
continuation `k`. -/
def lazyCapK {α : Type} (allowNl : Bool) (k : Str → Option α) : Str → Str → Option (Str × α)
  | _, [] => none
  | acc, c :: rest =>
    if allowNl || dotOk c then
      let acc2 := acc ++ [c]
      match k rest with
      | some r => some (acc2, r)
      | none => lazyCapK allowNl k acc2 rest
    else none

/-- `\s*(.+?)…`: the greedy whitespace run is tried longest-first, and
within each choice the capture grows lazily — the engine's
backtracking order. -/
def wsLazyCapGo {α : Type} (allowNl : Bool) (k : Str → Option α) (t : Str) :
    Nat → Option (Str × α)
  | 0 => lazyCapK allowNl k [] t
  | Nat.succ w =>
    match lazyCapK allowNl k [] (t.drop (Nat.succ w)) with
    | some r => some r
    | none => wsLazyCapGo allowNl k t w

def wsLazyCapK {α : Type} (allowNl : Bool) (k : Str → Option α) (t : Str) : Option (Str × α) :=
  wsLazyCapGo allowNl k t (t.takeWhile isWsChar).length

/-- Lazy zero-or-more capture directly closed by a literal
(`([\s\S]*?)LIT`). -/
def capAnyToLit (lit : Str) : Str → Str → Option (Str × Str)
  | acc, [] => if hasPrefixCI [] lit then some (acc, []) else none
  | acc, s@(c :: rest) =>
    if hasPrefixCI s lit then some (acc, s.drop lit.length)
    else capAnyToLit lit (acc ++ [c]) rest

/-- `:::VERB::: field: (.+?) :::END:::` (single dotall field).
Returns the raw field, the full matched text and the rest. -/
def oneFieldBlockAt (openLit fieldLit endLit : Str) (s : Str) : Option ((Str × Str) × Str) :=
  if hasPrefixCI s openLit then
    match wsLit fieldLit (s.drop openLit.length) with
    | none => none
    | some t =>
      match wsLazyCapK true (wsLit endLit) t with
      | some (cap, rest) => some ((cap, s.take (s.length - rest.length)), rest)
      | none => none
  else none

/-- `:::VERB::: f1: (.+?) f2: (.+?) :::END:::` (both fields dotall,
as in the move/rename regexes). -/
def twoFieldBlockAt (openLit f1 f2 endLit : Str) (s : Str) :
    Option ((Str × Str × Str) × Str) :=
  if hasPrefixCI s openLit then
    match wsLit f1 (s.drop openLit.length) with
    | none => none
    | some t =>
      match wsLazyCapK true
          (fun r => (wsLit f2 r).bind (wsLazyCapK true (wsLit endLit))) t with
      | some (cap1, (cap2, rest)) =>
        some ((cap1, cap2, s.take (s.length - rest.length)), rest)
      | none => none
  else none

/-- `:::VERB::: f1: (.+?) f2: ([\s\S]*?):::END:::` (first field stays
on one line, as in the create-note/append regexes which lack the `s`
flag). -/
def noteBlockAt (openLit f1 f2 endLit : Str) (s : Str) :
    Option ((Str × Str × Str) × Str) :=
  if hasPrefixCI s openLit then
    match wsLit f1 (s.drop openLit.length) with
    | none => none
    | some t =>
      match wsLazyCapK false
          (fun r =>
            match wsLit f2 r with
            | none => none
            | some r2 => capAnyToLit endLit [] (r2.dropWhile isWsChar)) t with
      | some (cap1, (cap2, rest)) =>
        some ((cap1, cap2, s.take (s.length - rest.length)), rest)
      | none => none
  else none

/-- `(true|false)` alternation. -/
def tfAt (t : Str) : Option (Str × Str) :=
  if hasPrefixCI t (str "true") then some (t.take 4, t.drop 4)
  else if hasPrefixCI t (str "false") then some (t.take 5, t.drop 5)
  else none

/-- `:::DELETE_FOLDER::: path: (.+?)(?:\s*recursive:\s*(true|false))?
\s*:::END_FOLDER:::` — the optional group is preferred when it
matches. -/
def deleteFolderBlockAt (s : Str) : Option ((Str × Option Str × Str) × Str) :=
  if hasPrefixCI s (str ":::DELETE_FOLDER:::") then
    match wsLit (str "path:") (s.drop (str ":::DELETE_FOLDER:::").length) with
    | none => none
    | some t =>
      let tailK : Str → Option (Option Str × Str) := fun r =>
        let withGroup :=
          match wsLit (str "recursive:") r with
          | none => none
          | some r2 =>
            match tfAt (r2.dropWhile isWsChar) with
            | none => none
            | some (tf, r3) => (wsLit (str ":::END_FOLDER:::") r3).map (fun rest => (some tf, rest))
        match withGroup with
        | some a => some a
        | none => (wsLit (str ":::END_FOLDER:::") r).map (fun rest => ((none : Option Str), rest))
      match wsLazyCapK true tailK t with
      | some (cap, (tf, rest)) => some ((cap, tf, s.take (s.length - rest.length)), rest)
      | none => none
  else none

/-! ### Normalisation (the five chained `.replace` calls) -/

/-- Generic global replace: leftmost matches, replaced in one
left-to-right pass. -/
def replaceAllWith (tryAt : Str → Option (Str × Str)) : Nat → Str → Str
  | 0, s => s
  | _, [] => []
  | Nat.succ fuel, s@(c :: rest) =>
    match tryAt s with
    | some (repl, rest2) => repl ++ replaceAllWith tryAt fuel rest2
    | none => c :: replaceAllWith tryAt fuel rest

def markerVerbs : List Str :=
  [str "CREATE_NOTE", str "CREATE_FOLDER", str "DELETE_FOLDER", str "MOVE_NOTE",
    str "APPEND_NOTE", str "RENAME", str "DELETE"]

def endVerbs : List Str :=
  [str "END_NOTE", str "END_FOLDER", str "END_MOVE", str "END_APPEND",
    str "END_RENAME", str "END_DELETE"]

/-- The verb alternation of `:::\s*(V1|…)\s*:::`, tried in source
order; each alternative must be followed by `\s*:::`.  Returns the
original-case verb text (the `$1` of the replacement) and the rest. -/
def altVerbAt : List Str → Str → Option (Str × Str)
  | [], _ => none
  | a :: more, t =>
    if hasPrefixCI t a then
      let rest := (t.drop a.length).dropWhile isWsChar
      if hasPrefixCI rest (str ":::") then some (t.take a.length, rest.drop 3)
      else altVerbAt more t
    else altVerbAt more t

/-- One match of `/:::\s*(VERBS)\s*:::/gi`, replaced by
`'\n:::$1:::\n'`. -/
def markerNormAt (alts : List Str) (s : Str) : Option (Str × Str) :=
  if hasPrefixCI s (str ":::") then
    (altVerbAt alts ((s.drop 3).dropWhile isWsChar)).map
      (fun pr => (str "\n:::" ++ pr.1 ++ str ":::\n", pr.2))
  else none

/-- One match of `/(\w)\s*\.\s*\n\s*(md)/gi`, replaced by `'$1.$2'`. -/
def dotMdNormAt (s : Str) : Option (Str × Str) :=
  match s with
  | [] => none
  | c :: rest =>
    if isWordChar c then
      match rest.dropWhile isWsChar with
      | '.' :: t2 =>
        let wsrun := t2.takeWhile isWsChar
        if wsrun.contains '\n' then
          let t3 := t2.drop wsrun.length
          if hasPrefixCI t3 (str "md") then some (c :: '.' :: t3.take 2, t3.drop 2)
          else none
        else none
      | _ => none
    else none

/-- One match of `/\n\s*(to:)/gi`, replaced by the literal `'\nto:'`. -/
def toNormAt (s : Str) : Option (Str × Str) :=
  match s with
  | '\n' :: rest =>
    let t := rest.dropWhile isWsChar
    if hasPrefixCI t (str "to:") then some (str "\nto:", t.drop 3) else none
  | _ => none

/-- The scan for `(from:.*?)\n\s*(to:)` after the `from:` literal: the
lazy capture stops at the first `\n\s*to:`, and cannot cross a line
terminator itself. -/
def fromToScan (lit : Str) : Str → Str → Option (Str × Str)
  | _, [] => none
  | acc, t@(c :: rest) =>
    match t with
    | '\n' :: r2 =>
      let r3 := r2.dropWhile isWsChar
      if hasPrefixCI r3 (str "to:") then some (lit ++ acc ++ str "\nto:", r3.drop 3)
      else none
    | _ =>
      if dotOk c then fromToScan lit (acc ++ [c]) rest else none

/-- One match of `/(from:.*?)\n\s*(to:)/gi`, replaced by `'$1\nto:'`. -/
def fromToNormAt (s : Str) : Option (Str × Str) :=
  if hasPrefixCI s (str "from:") then fromToScan (s.take 5) [] (s.drop 5)
  else none

/-- The normalisation pipeline at the top of `parseAndCreateNotes`. -/
def normalizeReply (s : Str) : Str :=
  let s1 := replaceAllWith (markerNormAt markerVerbs) s.length s
  let s2 := replaceAllWith (markerNormAt endVerbs) s1.length s1
  let s3 := replaceAllWith dotMdNormAt s2.length s2
  let s4 := replaceAllWith toNormAt s3.length s3
  replaceAllWith fromToNormAt s4.length s4

/-! ### Parsed operations and execution -/

inductive PendingOp where
  | createFolderOp (path : Str)
  | createNoteOp (title content : Str)
  | moveNoteOp (fromPath toPath : Str)
  | appendNoteOp (notePath content : Str)
  | renameOp (fromPath toPath : Str)
  | deleteOp (path : Str)
  | deleteFolderOp (path : Str) (recursive : Bool)
deriving DecidableEq, Repr

/-- The fixed execution precedence: folder creation, note creation,
move, append, rename, delete file, delete folder. -/
def PendingOp.category : PendingOp → Nat
  | .createFolderOp _ => 1
  | .createNoteOp _ _ => 2
  | .moveNoteOp _ _ => 3
  | .appendNoteOp _ _ => 4
  | .renameOp _ _ => 5
  | .deleteOp _ => 6
  | .deleteFolderOp _ _ => 7

/-- `.trim().replace(/^["']|["']$/g, '')`: one leading and one
trailing quote removed. -/
def stripEdgeQuotes (s : Str) : Str :=
  let s1 := match s with
    | [] => []
    | c :: rest => if c == dq || c == sq then rest else s
  match s1.getLast? with
  | some c => if c == dq || c == sq then s1.dropLast else s1
  | none => s1

/-- Path-field cleanup: trim, strip edge quotes, delete `[\n\r]`,
trim. -/
def cleansePath (s : Str) : Str :=
  jsTrim ((stripEdgeQuotes (jsTrim s)).filter (fun c => !(c == '\n' || c == '\r')))

/-- Title-field cleanup: as for paths but `[\n\r]` becomes a space. -/
def cleanseTitle (s : Str) : Str :=
  jsTrim ((stripEdgeQuotes (jsTrim s)).map (fun c => if c == '\n' || c == '\r' then ' ' else c))

/-- Parsed create-folder operations (with the matched block text for
later removal); blocks whose cleaned field is empty are skipped
exactly as by the `if (path)` guard. -/
def folderOpsOf (n : Str) : List (PendingOp × Str) :=
  (matchAllWith
    (oneFieldBlockAt (str ":::CREATE_FOLDER:::") (str "path:") (str ":::END_FOLDER:::"))
    n.length n).filterMap
    (fun pr =>
      let path := cleansePath pr.1
      if path.isEmpty then none else some (.createFolderOp path, pr.2))

def noteOpsOf (n : Str) : List (PendingOp × Str) :=
  (matchAllWith
    (noteBlockAt (str ":::CREATE_NOTE:::") (str "title:") (str "content:") (str ":::END_NOTE:::"))
    n.length n).filterMap
    (fun pr =>
      let title := cleanseTitle pr.1
      let contentT := jsTrim pr.2.1
      let content :=
        if contentT.isEmpty then str "# " ++ title ++ str "\n\nNote created by Athena AI"
        else contentT
      if title.isEmpty then none else some (.createNoteOp title content, pr.2.2))

def moveOpsOf (n : Str) : List (PendingOp × Str) :=
  (matchAllWith
    (twoFieldBlockAt (str ":::MOVE_NOTE:::") (str "from:") (str "to:") (str ":::END_MOVE:::"))
    n.length n).filterMap
    (fun pr =>
      let fromP := cleansePath pr.1
      let toP := cleansePath pr.2.1
      if fromP.isEmpty || toP.isEmpty then none else some (.moveNoteOp fromP toP, pr.2.2))

def appendOpsOf (n : Str) : List (PendingOp × Str) :=
  (matchAllWith
    (noteBlockAt (str ":::APPEND_NOTE:::") (str "note:") (str "content:") (str ":::END_APPEND:::"))
    n.length n).filterMap
    (fun pr =>
      let notePath := cleansePath pr.1
      let content := jsTrim pr.2.1
      if notePath.isEmpty || content.isEmpty then none
      else some (.appendNoteOp notePath content, pr.2.2))

def renameOpsOf (n : Str) : List (PendingOp × Str) :=
  (matchAllWith
    (twoFieldBlockAt (str ":::RENAME:::") (str "from:") (str "to:") (str ":::END_RENAME:::"))
    n.length n).filterMap
    (fun pr =>
      let fromP := cleansePath pr.1
      let toP := cleansePath pr.2.1
      if fromP.isEmpty || toP.isEmpty then none else some (.renameOp fromP toP, pr.2.2))

def deleteOpsOf (n : Str) : List (PendingOp × Str) :=
  (matchAllWith
    (oneFieldBlockAt (str ":::DELETE:::") (str "path:") (str ":::END_DELETE:::"))
    n.length n).filterMap
    (fun pr =>
      let path := cleansePath pr.1
      if path.isEmpty then none else some (.deleteOp path, pr.2))

def deleteFolderOpsOf (n : Str) : List (PendingOp × Str) :=
  (matchAllWith deleteFolderBlockAt n.length n).filterMap
    (fun pr =>
      let path := cleansePath pr.1
      let recursive :=
        match pr.2.1 with
        | some tf => lowerStr tf == str "true"
        | none => false
      if path.isEmpty then none else some (.deleteFolderOp path recursive, pr.2.2))

/-- All guard-passing operations of the normalised reply, in the fixed
category execution order. -/
def opsOf (n : Str) : List (PendingOp × Str) :=
  folderOpsOf n ++ noteOpsOf n ++ moveOpsOf n ++ appendOpsOf n ++
    renameOpsOf n ++ deleteOpsOf n ++ deleteFolderOpsOf n

/-- Execute one operation against the vault. -/
def runOp (v : Vault) : PendingOp → Bool × Vault
  | .createFolderOp p => let r := createFolder v p; (r.1, r.2.1)
  | .createNoteOp t c => let r := createNote v t c; (r.1.isSome, r.2)
  | .moveNoteOp f t => moveNote v f t
  | .appendNoteOp n c => appendToNote v n c
  | .renameOp f t => renameFile v f t
  | .deleteOp p => deleteFile v p
  | .deleteFolderOp p r => deleteFolder v p r

/-- The outcome line pushed onto `results` for one executed operation.
For append and rename the source pushes the success-format line
without consulting the boolean result. -/
def outcomeLine (op : PendingOp) (ok : Bool) : Str :=
  match op with
  | .createFolderOp p =>
    if ok then str "📁 Created folder: " ++ p else str "❌ Failed to create folder: " ++ p
  | .createNoteOp t _ =>
    if ok then str "✅ Created note: [[" ++ t ++ str "]]"
    else str "❌ Failed to create note: " ++ t
  | .moveNoteOp f t =>
    if ok then str "📦 Moved: " ++ f ++ str " → " ++ t else str "❌ Failed to move: " ++ f
  | .appendNoteOp n _ => str "📝 Added to: [[" ++ n ++ str "]]"
  | .renameOp f t => str "✏️ Renamed: " ++ f ++ str " → " ++ t
  | .deleteOp p =>
    if ok then str "🗑️ Deleted: " ++ p else str "❌ Failed to delete: " ++ p
  | .deleteFolderOp p _ =>
    if ok then str "🗑️ Deleted folder: " ++ p else str "❌ Failed to delete folder: " ++ p

/-- Sequential execution: each operation is attempted exactly once, in
list order, regardless of earlier failures, and contributes exactly
one outcome line. -/
def execOps : Vault → List (PendingOp × Str) → List (PendingOp × Bool × Str) × Vault
  | v, [] => ([], v)
  | v, (op, _) :: rest =>
    let r := runOp v op
    let tail := execOps r.2 rest
    ((op, r.1, outcomeLine op r.1) :: tail.1, tail.2)

/-- The execution trace of a reply against a vault. -/
def execTrace (v : Vault) (response : Str) : List (PendingOp × Bool × Str) :=
  (execOps v (opsOf (normalizeReply response))).1

/-- `parseAndCreateNotes(response)`: returns the rewritten display
text and the mutated vault. -/
def parseAndCreateNotes (v : Vault) (response : Str) : Str × Vault :=
  let normalized := normalizeReply response
  let ops := opsOf normalized
  let tr := execOps v ops
  let result := ops.foldl (fun t pr => replaceFirst t pr.2 []) normalized
  if ops.isEmpty then (result, v)
  else
    let lines := tr.1.map (fun x => x.2.2)
    let summary := str "\n\n**Operations completed:**\n" ++
      joinSep (str "\n") (lines.map (fun l => str "- " ++ l)) ++ str "\n\n"
    (summary ++ jsTrim (result.dropWhile isWsChar), tr.2)

/-! ## Concrete fixtures used by witnesses and counterexamples -/

/-- A 16-turn history for the summarizer witness. -/
def stC7 : ChatState :=
  { conversationHistory := List.replicate 16 ⟨ChatRole.user, str "hi there"⟩,
    conversationSummary := str "old summary",
    summaryCyclesRemaining := 15,
    isContextFull := false }

/-- A file list where a substring-matching file precedes an
exact-basename match for the mention `"Notes"`. -/
def c3files : List VFile :=
  [⟨str "Meeting Notes.md", str "alpha", [], [], 0⟩, ⟨str "Notes.md", str "beta", [], [], 0⟩]

/-- A small notes index with a score tie between the first two
entries on the query `"apple"`. -/
def c5idx : List NoteRec :=
  [⟨str "p1.md", str "apple pie", [], [], str ""⟩,
   ⟨str "p2.md", str "apple", [], [], str ""⟩,
   ⟨str "p3.md", str "zebra", [], [], str ""⟩]

/-- A vault with one root note `Alpha.md`. -/
def c6v1 : Vault := { files := [⟨str "Alpha.md", str "x", [], [], 0⟩], folders := [] }

/-- A vault with one root note `Alpha Beta.md` (substring match only
for the name `Alpha`). -/
def c6v2 : Vault := { files := [⟨str "Alpha Beta.md", str "x", [], [], 0⟩], folders := [] }

/-- The spec's scenario reply: create-folder block before the move
block. -/
def reply1C : Str :=
  str ":::CREATE_FOLDER:::\npath: A/B\n:::END_FOLDER:::\n:::MOVE_NOTE:::\nfrom: X.md\nto: A/B\n:::END_MOVE:::"

/-- The same two blocks in reversed textual order. -/
def reply2C : Str :=
  str ":::MOVE_NOTE:::\nfrom: X.md\nto: A/B\n:::END_MOVE:::\n:::CREATE_FOLDER:::\npath: A/B\n:::END_FOLDER:::"

/-- A vault holding only the root note `X.md`. -/
def vC1 : Vault := { files := [⟨str "X.md", str "hello", [], [], 0⟩], folders := [] }

/-- A reply with a rename block whose source file does not exist. -/
def replyR : Str :=
  str ":::RENAME:::\nfrom: Ghost\nto: Spirit\n:::END_RENAME:::"

/-! # Claims -/

/-! ### C1 — fixed category execution order -/

theorem execOps_ops (v : Vault) (l : List (PendingOp × Str)) :
    (execOps v l).1.map (fun t => t.1) = l.map Prod.fst := by
  induction l generalizing v with
  | nil => rfl
  | cons p t ih =>
    obtain ⟨op, s⟩ := p
    show ((op, (runOp v op).1, outcomeLine op (runOp v op).1)
        :: (execOps (runOp v op).2 t).1).map (fun t => t.1) = _
    rw [List.map_cons, ih]
    rfl

theorem folderOps_cat (n : Str) : ∀ x ∈ folderOpsOf n, x.1.category = 1 := by
  intro x hx
  rcases List.mem_filterMap.mp hx with ⟨pr, _, hpr⟩
  dsimp only at hpr
  split at hpr
  · cases hpr
  · injection hpr with h
    subst h
    rfl

theorem noteOps_cat (n : Str) : ∀ x ∈ noteOpsOf n, x.1.category = 2 := by
  intro x hx
  rcases List.mem_filterMap.mp hx with ⟨pr, _, hpr⟩
  dsimp only at hpr
  split at hpr
  · cases hpr
  · injection hpr with h
    subst h
    rfl

theorem moveOps_cat (n : Str) : ∀ x ∈ moveOpsOf n, x.1.category = 3 := by
  intro x hx
  rcases List.mem_filterMap.mp hx with ⟨pr, _, hpr⟩
  dsimp only at hpr
  split at hpr
  · cases hpr
  · injection hpr with h
    subst h
    rfl

theorem appendOps_cat (n : Str) : ∀ x ∈ appendOpsOf n, x.1.category = 4 := by
  intro x hx
  rcases List.mem_filterMap.mp hx with ⟨pr, _, hpr⟩
  dsimp only at hpr
  split at hpr
  · cases hpr
  · injection hpr with h
    subst h
    rfl

theorem renameOps_cat (n : Str) : ∀ x ∈ renameOpsOf n, x.1.category = 5 := by
  intro x hx
  rcases List.mem_filterMap.mp hx with ⟨pr, _, hpr⟩
  dsimp only at hpr
  split at hpr
  · cases hpr
  · injection hpr with h
    subst h
    rfl

theorem deleteOps_cat (n : Str) : ∀ x ∈ deleteOpsOf n, x.1.category = 6 := by
  intro x hx
  rcases List.mem_filterMap.mp hx with ⟨pr, _, hpr⟩
  dsimp only at hpr
  split at hpr
  · cases hpr
  · injection hpr with h
    subst h
    rfl

theorem deleteFolderOps_cat (n : Str) : ∀ x ∈ deleteFolderOpsOf n, x.1.category = 7 := by
  intro x hx
  rcases List.mem_filterMap.mp hx with ⟨pr, _, hpr⟩
  dsimp only at hpr
  split at hpr
  · cases hpr
  · injection hpr with h
    subst h
    rfl

theorem pairwise_const_le {l : List (PendingOp × Str)} {c : Nat}
    (h : ∀ x ∈ l, x.1.category = c) :
    (l.map (fun t => t.1.category)).Pairwise (· ≤ ·) := by
  induction l with
  | nil => simp
  | cons a t ih =>
    rw [List.map_cons, List.pairwise_cons]
    constructor
    · intro b hb
      rcases List.mem_map.mp hb with ⟨y, hy, rfl⟩
      rw [h a (List.mem_cons_self _ _), h y (List.mem_cons_of_mem _ hy)]
    · exact ih (fun x hx => h x (List.mem_cons_of_mem _ hx))

theorem pairwise_cat_append {l1 l2 : List (PendingOp × Str)}
    (h1 : (l1.map (fun t => t.1.category)).Pairwise (· ≤ ·))
    (h2 : (l2.map (fun t => t.1.category)).Pairwise (· ≤ ·))
    (hcross : ∀ a ∈ l1, ∀ b ∈ l2, a.1.category ≤ b.1.category) :
    ((l1 ++ l2).map (fun t => t.1.category)).Pairwise (· ≤ ·) := by
  rw [List.map_append, List.pairwise_append]
  refine ⟨h1, h2, ?_⟩
  intro a ha b hb
  rcases List.mem_map.mp ha with ⟨x, hx, rfl⟩
  rcases List.mem_map.mp hb with ⟨y, hy, rfl⟩
  exact hcross x hx y hy

theorem opsOf_sorted (n : Str) :
    ((opsOf n).map (fun t => t.1.category)).Pairwise (· ≤ ·) := by
  have g7 : ∀ x ∈ deleteFolderOpsOf n, 7 ≤ x.1.category := by
    intro x hx
    rw [deleteFolderOps_cat n x hx]
  have g6 : ∀ x ∈ deleteOpsOf n ++ deleteFolderOpsOf n, 6 ≤ x.1.category := by
    intro x hx
    rcases List.mem_append.mp hx with hx | hx
    · rw [deleteOps_cat n x hx]
    · have := g7 x hx
      omega
  have g5 : ∀ x ∈ renameOpsOf n ++ (deleteOpsOf n ++ deleteFolderOpsOf n),
      5 ≤ x.1.category := by
    intro x hx
    rcases List.mem_append.mp hx with hx | hx
    · rw [renameOps_cat n x hx]
    · have := g6 x hx
      omega
  have g4 : ∀ x ∈ appendOpsOf n ++ (renameOpsOf n ++ (deleteOpsOf n ++ deleteFolderOpsOf n)),
      4 ≤ x.1.category := by
    intro x hx
    rcases List.mem_append.mp hx with hx | hx
    · rw [appendOps_cat n x hx]
    · have := g5 x hx
      omega
  have g3 : ∀ x ∈ moveOpsOf n ++ (appendOpsOf n ++ (renameOpsOf n ++
      (deleteOpsOf n ++ deleteFolderOpsOf n))), 3 ≤ x.1.category := by
    intro x hx
    rcases List.mem_append.mp hx with hx | hx
    · rw [moveOps_cat n x hx]
    · have := g4 x hx
      omega
  have g2 : ∀ x ∈ noteOpsOf n ++ (moveOpsOf n ++ (appendOpsOf n ++ (renameOpsOf n ++
      (deleteOpsOf n ++ deleteFolderOpsOf n)))), 2 ≤ x.1.category := by
    intro x hx
    rcases List.mem_append.mp hx with hx | hx
    · rw [noteOps_cat n x hx]
    · have := g3 x hx
      omega
  have p67 := pairwise_cat_append (pairwise_const_le (deleteOps_cat n))
    (pairwise_const_le (deleteFolderOps_cat n))
    (fun a ha b hb => by rw [deleteOps_cat n a ha]; exact le_trans (by omega) (g7 b hb))
  have p567 := pairwise_cat_append (pairwise_const_le (renameOps_cat n)) p67
    (fun a ha b hb => by rw [renameOps_cat n a ha]; have := g6 b hb; omega)
  have p4567 := pairwise_cat_append (pairwise_const_le (appendOps_cat n)) p567
    (fun a ha b hb => by rw [appendOps_cat n a ha]; have := g5 b hb; omega)
  have p34567 := pairwise_cat_append (pairwise_const_le (moveOps_cat n)) p4567
    (fun a ha b hb => by rw [moveOps_cat n a ha]; have := g4 b hb; omega)
  have p234567 := pairwise_cat_append (pairwise_const_le (noteOps_cat n)) p34567
    (fun a ha b hb => by rw [noteOps_cat n a ha]; have := g3 b hb; omega)
  have pAll := pairwise_cat_append (pairwise_const_le (folderOps_cat n)) p234567
    (fun a ha b hb => by rw [folderOps_cat n a ha]; have := g2 b hb; omega)
  simpa only [opsOf, List.append_assoc] using pAll

/-- C1: the executed operations of any reply are ordered by the fixed
category precedence (folder creation, note creation, move, append,
rename, delete file, delete folder) irrespective of where the blocks
appear in the text; in particular, for the reply with a create-folder
block and a move block targeting it — in either textual order — the
parsed operation list is the folder creation followed by the move,
both executions succeed, and the final vault holds the created folder
with the note moved into it. -/
theorem parseAndCreateNotes_order :
    (∀ (reply : Str) (v : Vault),
      ((execTrace v reply).map (fun t => t.1.category)).Pairwise (· ≤ ·)) ∧
    (opsOf (normalizeReply reply1C)).map Prod.fst
        = [PendingOp.createFolderOp (str "A/B"), PendingOp.moveNoteOp (str "X.md") (str "A/B")] ∧
    (opsOf (normalizeReply reply2C)).map Prod.fst
        = [PendingOp.createFolderOp (str "A/B"), PendingOp.moveNoteOp (str "X.md") (str "A/B")] ∧
    (execTrace vC1 reply1C).map (fun t => t.2.1) = [true, true] ∧
    (execTrace vC1 reply2C).map (fun t => t.2.1) = [true, true] ∧
    (parseAndCreateNotes vC1 reply1C).2
        = ⟨[⟨str "A/B/X.md", str "hello", [], [], 0⟩], [str "A", str "A/B"]⟩ ∧
    (parseAndCreateNotes vC1 reply2C).2
        = ⟨[⟨str "A/B/X.md", str "hello", [], [], 0⟩], [str "A", str "A/B"]⟩ := by
  refine ⟨?_, by decide, by decide, by decide, by decide, by decide, by decide⟩
  intro reply v
  have hmap : (execTrace v reply).map (fun t => t.1)
      = (opsOf (normalizeReply reply)).map Prod.fst := execOps_ops v _
  have hmap2 := congrArg (List.map PendingOp.category) hmap
  rw [List.map_map, List.map_map] at hmap2
  have he : (execTrace v reply).map (fun t => t.1.category)
      = (opsOf (normalizeReply reply)).map (fun t => t.1.category) := hmap2
  rw [he]
  exact opsOf_sorted _

/-! ### C2 — independent execution and outcome lines -/

/-- C2 counterexample: for a reply containing a single rename block
whose source note does not exist, the executed rename fails (its
result is `false`), yet the recorded outcome line is exactly the
success-format line — the rename (and append) outcome lines do not
report the operation's own failure. -/
theorem outcomeLine_not_faithful :
    execTrace (Vault.mk [] []) replyR
        = [(PendingOp.renameOp (str "Ghost") (str "Spirit"), false,
            str "✏️ Renamed: Ghost → Spirit")] ∧
    outcomeLine (PendingOp.renameOp (str "Ghost") (str "Spirit")) false
        = outcomeLine (PendingOp.renameOp (str "Ghost") (str "Spirit")) true := by
  exact ⟨by decide, by decide⟩

theorem exec_line_eq (v : Vault) (l : List (PendingOp × Str)) :
    ∀ t ∈ (execOps v l).1, t.2.2 = outcomeLine t.1 t.2.1 := by
  induction l generalizing v with
  | nil => intro t ht; cases ht
  | cons p rest ih =>
    obtain ⟨op, s⟩ := p
    intro t ht
    have he : (execOps v ((op, s) :: rest)).1
        = (op, (runOp v op).1, outcomeLine op (runOp v op).1)
          :: (execOps (runOp v op).2 rest).1 := rfl
    rw [he] at ht
    rcases List.mem_cons.mp ht with rfl | ht
    · rfl
    · exact ih _ t ht

/-- C2 (amended): every guard-passing parsed operation is executed
exactly once, in order, independently of earlier failures (the trace's
operations equal the parsed list for every vault), and each executed
operation contributes exactly one outcome line; the line reports the
operation's own success or failure for the folder-create, note-create,
move, delete-file and delete-folder categories (whose success and
failure lines always differ), but for append and rename the
success-format line is emitted regardless of the operation's
result. -/
theorem exec_outcome_spec (reply : Str) (v : Vault) :
    ((execTrace v reply).map (fun t => t.1) = (opsOf (normalizeReply reply)).map Prod.fst) ∧
    ((execTrace v reply).length = (opsOf (normalizeReply reply)).length) ∧
    (∀ t ∈ execTrace v reply, t.2.2 = outcomeLine t.1 t.2.1) ∧
    (∀ p, outcomeLine (.createFolderOp p) true ≠ outcomeLine (.createFolderOp p) false) ∧
    (∀ t c, outcomeLine (.createNoteOp t c) true ≠ outcomeLine (.createNoteOp t c) false) ∧
    (∀ a b, outcomeLine (.moveNoteOp a b) true ≠ outcomeLine (.moveNoteOp a b) false) ∧
    (∀ p, outcomeLine (.deleteOp p) true ≠ outcomeLine (.deleteOp p) false) ∧
    (∀ p r, outcomeLine (.deleteFolderOp p r) true ≠ outcomeLine (.deleteFolderOp p r) false) ∧
    (∀ nm c b, outcomeLine (.appendNoteOp nm c) b = outcomeLine (.appendNoteOp nm c) true) ∧
    (∀ a b bb, outcomeLine (.renameOp a b) bb = outcomeLine (.renameOp a b) true) ∧
    (opsOf (normalizeReply reply) ≠ [] →
      (parseAndCreateNotes v reply).1
        = str "\n\n**Operations completed:**\n" ++
          joinSep (str "\n") (((execTrace v reply).map (fun x => x.2.2)).map
            (fun l => str "- " ++ l)) ++ str "\n\n" ++
          jsTrim (((opsOf (normalizeReply reply)).foldl
            (fun t pr => replaceFirst t pr.2 []) (normalizeReply reply)).dropWhile isWsChar)) := by
  refine ⟨execOps_ops v _, ?_, exec_line_eq v _, ?_, ?_, ?_, ?_, ?_, ?_, ?_, ?_⟩
  · have h := congrArg List.length (execOps_ops v (opsOf (normalizeReply reply)))
    simpa using h
  · intro p he
    have h2 : (['📁'] : Str) = ['❌'] := congrArg (fun l : Str => l.take 1) he
    exact absurd h2 (by decide)
  · intro t c he
    have h2 : (['✅'] : Str) = ['❌'] := congrArg (fun l : Str => l.take 1) he
    exact absurd h2 (by decide)
  · intro a b he
    have h2 : (['📦'] : Str) = ['❌'] := congrArg (fun l : Str => l.take 1) he
    exact absurd h2 (by decide)
  · intro p he
    have h2 : (['🗑'] : Str) = ['❌'] := congrArg (fun l : Str => l.take 1) he
    exact absurd h2 (by decide)
  · intro p r he
    have h2 : (['🗑'] : Str) = ['❌'] := congrArg (fun l : Str => l.take 1) he
    exact absurd h2 (by decide)
  · intro nm c b
    cases b <;> rfl
  · intro a b bb
    cases bb <;> rfl
  · intro hne
    unfold parseAndCreateNotes
    rw [if_neg (by simpa [List.isEmpty_iff] using hne)]
    rfl

theorem exec_outcome_spec_witness :
    (execTrace (Vault.mk [] []) replyR).map (fun t => t.1)
        = (opsOf (normalizeReply replyR)).map Prod.fst ∧
    (str "✏️ Renamed: Ghost → Spirit"
        = outcomeLine (PendingOp.renameOp (str "Ghost") (str "Spirit")) false) ∧
    (parseAndCreateNotes (Vault.mk [] []) replyR).1
        = str "\n\n**Operations completed:**\n" ++
          joinSep (str "\n") (((execTrace (Vault.mk [] []) replyR).map (fun x => x.2.2)).map
            (fun l => str "- " ++ l)) ++ str "\n\n" ++
          jsTrim (((opsOf (normalizeReply replyR)).foldl
            (fun t pr => replaceFirst t pr.2 []) (normalizeReply replyR)).dropWhile isWsChar) := by
  have h := exec_outcome_spec replyR (Vault.mk [] [])
  refine ⟨h.1, ?_, h.2.2.2.2.2.2.2.2.2.2 (by decide)⟩
  have h3 := h.2.2.1 (PendingOp.renameOp (str "Ghost") (str "Spirit"), false,
      str "✏️ Renamed: Ghost → Spirit") (by decide)
  exact h3

/-! ### C3 — mention resolution -/

/-- C3 counterexample: the vault contains a file whose basename is an
exact case-insensitive match for the mention `"Notes"`, yet mention
resolution returns the earlier file `"Meeting Notes.md"`, which is
only a substring match — exact matches are not given precedence, the
single `find` scans with a disjunctive predicate. -/
theorem findMentionFile_exact_not_preferred :
    (∃ f ∈ c3files, lowerStr (baseNameOf f.path) = lowerStr (str "Notes")) ∧
    findMentionFile c3files (str "Notes")
        = some ⟨str "Meeting Notes.md", str "alpha", [], [], 0⟩ ∧
    lowerStr (baseNameOf (str "Meeting Notes.md")) ≠ lowerStr (str "Notes") := by
  refine ⟨⟨⟨str "Notes.md", str "beta", [], [], 0⟩, by decide, by decide⟩, by decide, by decide⟩

/-- C3 (amended): resolution returns the first file, in file-list
order, whose basename matches the name exactly case-insensitively or
contains it as a case-insensitive substring — with no precedence of
exact matches over substring matches; it returns none exactly when no
file satisfies either criterion. -/
theorem findMentionFile_first_match (files : List VFile) (m : Str) :
    (∀ f, findMentionFile files m = some f →
      mentionPred m f = true ∧
      ∃ pre suf, files = pre ++ f :: suf ∧ ∀ g ∈ pre, mentionPred m g = false) ∧
    (findMentionFile files m = none ↔ ∀ f ∈ files, mentionPred m f = false) := by
  constructor
  · induction files with
    | nil => intro f hf; simp [findMentionFile] at hf
    | cons a l ih =>
      intro f hf
      unfold findMentionFile at hf
      by_cases ha : mentionPred m a = true
      · rw [List.find?_cons_of_pos _ ha] at hf
        cases hf
        exact ⟨ha, [], l, rfl, by simp⟩
      · rw [List.find?_cons_of_neg _ ha] at hf
        obtain ⟨hpf, pre, suf, heq, hall⟩ := ih f hf
        refine ⟨hpf, a :: pre, suf, by rw [heq]; rfl, ?_⟩
        intro g hg
        rcases List.mem_cons.mp hg with hg | hg
        · subst hg; exact Bool.not_eq_true _ ▸ eq_false_of_ne_true ha
        · exact hall g hg
  · unfold findMentionFile
    rw [List.find?_eq_none]
    constructor
    · intro h f hf; exact eq_false_of_ne_true (h f hf)
    · intro h f hf; rw [h f hf]; simp

theorem findMentionFile_first_match_witness :
    mentionPred (str "Notes") ⟨str "Meeting Notes.md", str "alpha", [], [], 0⟩ = true ∧
    (findMentionFile [] (str "Notes") = none ↔
      ∀ f ∈ ([] : List VFile), mentionPred (str "Notes") f = false) :=
  ⟨((findMentionFile_first_match c3files (str "Notes")).1 _ (by decide)).1,
    (findMentionFile_first_match [] (str "Notes")).2⟩

/-! ### C4 — deleteFolder -/

theorem hasPrefixB_iff {t s : Str} : hasPrefixB s t = true ↔ ∃ r, s = t ++ r := by
  induction t generalizing s with
  | nil => simp [hasPrefixB]
  | cons c cs ih =>
    cases s with
    | nil => simp [hasPrefixB]
    | cons d ds =>
      show (d == c && hasPrefixB ds cs) = true ↔ _
      rw [Bool.and_eq_true, beq_iff_eq, ih]
      constructor
      · rintro ⟨rfl, r, rfl⟩
        exact ⟨r, rfl⟩
      · rintro ⟨r, hr⟩
        rw [List.cons_append] at hr
        exact ⟨(List.cons.injEq _ _ _ _ ▸ hr).1, r, (List.cons.injEq _ _ _ _ ▸ hr).2⟩

theorem underOrEqB_iff {p q : Str} :
    underOrEqB p q = true ↔ (q = p ∨ ∃ r, q = p ++ '/' :: r) := by
  unfold underOrEqB
  rw [Bool.or_eq_true, beq_iff_eq, hasPrefixB_iff]
  constructor
  · rintro (rfl | ⟨r, hr⟩)
    · exact Or.inl rfl
    · right
      exact ⟨r, by rw [hr, List.append_assoc]; rfl⟩
  · rintro (rfl | ⟨r, hr⟩)
    · exact Or.inl rfl
    · right
      exact ⟨r, by rw [hr, List.append_assoc]; rfl⟩

theorem underOrEqB_refl (p : Str) : underOrEqB p p = true :=
  underOrEqB_iff.mpr (Or.inl rfl)

theorem underOrEqB_length {a b : Str} (h : underOrEqB a b = true) :
    a.length ≤ b.length := by
  rcases underOrEqB_iff.mp h with rfl | ⟨r, rfl⟩
  · exact le_refl _
  · simp

theorem underOrEqB_trans {a b c : Str}
    (h1 : underOrEqB a b = true) (h2 : underOrEqB b c = true) :
    underOrEqB a c = true := by
  rcases underOrEqB_iff.mp h1 with rfl | ⟨r, rfl⟩
  · exact h2
  · rcases underOrEqB_iff.mp h2 with rfl | ⟨u, hu⟩
    · exact h1
    · refine underOrEqB_iff.mpr (Or.inr ⟨r ++ '/' :: u, ?_⟩)
      rw [hu, List.append_assoc]
      rfl

theorem underOrEqB_eq_of_paths {x g : Str} (h : underOrEqB g x = false) : x ≠ g := by
  intro hx
  subst hx
  rw [underOrEqB_refl] at h
  cases h

/-- Direct children of `p` have paths of the form `p/name` with a
non-empty, slash-free name. -/
theorem isDirectChild_shape {p q : Str} (h : isDirectChildB p q = true) :
    ∃ n, q = p ++ '/' :: n ∧ n ≠ [] ∧ n.contains '/' = false := by
  unfold isDirectChildB at h
  rw [Bool.and_eq_true] at h
  rcases hasPrefixB_iff.mp h.1 with ⟨r, hr⟩
  have hq : q = p ++ '/' :: r := by rw [hr, List.append_assoc]; rfl
  have hdrop : q.drop (p.length + 1) = r := by
    rw [hq]
    have : p ++ '/' :: r = (p ++ ['/']) ++ r := by rw [List.append_assoc]; rfl
    rw [this]
    have hlen : (p ++ ['/']).length = p.length + 1 := by simp
    rw [← hlen]
    exact List.drop_left _ _
  refine ⟨r, hq, ?_, ?_⟩
  · have := h.2
    rw [hdrop] at this
    rw [Bool.and_eq_true] at this
    intro hr0
    rw [hr0] at this
    cases this.1
  · have := h.2
    rw [hdrop] at this
    rw [Bool.and_eq_true] at this
    cases hcr : r.contains '/' with
    | false => rfl
    | true => rw [hcr] at this; cases this.2

/-- Two distinct direct children of the same folder are not nested in
one another. -/
theorem directChildren_not_under {p q1 q2 : Str}
    (h1 : isDirectChildB p q1 = true) (h2 : isDirectChildB p q2 = true)
    (hne : q1 ≠ q2) : underOrEqB q1 q2 = false := by
  rcases isDirectChild_shape h1 with ⟨n1, rfl, hn1, _⟩
  rcases isDirectChild_shape h2 with ⟨n2, rfl, hn2, hs2⟩
  cases hu : underOrEqB (p ++ '/' :: n1) (p ++ '/' :: n2) with
  | false => rfl
  | true =>
    rcases underOrEqB_iff.mp hu with he | ⟨r, hr⟩
    · exact absurd he.symm hne
    · have hn : n2 = n1 ++ '/' :: r := by
        rw [List.append_assoc, List.cons_append] at hr
        have h3 := List.append_cancel_left hr
        injection h3 with he ht
      have : n2.contains '/' = true := by
        rw [hn]
        apply List.elem_eq_true_of_mem
        rw [List.mem_append]
        right
        exact List.mem_cons_self _ _
      rw [this] at hs2
      cases hs2

theorem trashEntry_file_some {w : Vault} {g : VFile} (hg : g ∈ w.files) :
    w.trashEntry (.file g)
      = some ⟨w.files.filter (fun x => !(x.path == g.path)), w.folders⟩ := by
  unfold Vault.trashEntry
  dsimp only
  rw [if_pos (List.any_eq_true.mpr ⟨g, hg, by simp⟩)]

theorem trashEntry_file_eq {w : Vault} {g : VFile} {v2 : Vault}
    (h : w.trashEntry (.file g) = some v2) :
    v2 = ⟨w.files.filter (fun x => !(x.path == g.path)), w.folders⟩ := by
  unfold Vault.trashEntry at h
  dsimp only at h
  split at h
  · exact (Option.some_inj.mp h).symm
  · cases h

theorem trashEntry_folder_some {w : Vault} {p : Str} (hp : p ∈ w.folders) :
    w.trashEntry (.folder p)
      = some ⟨w.files.filter (fun x => !underOrEqB p x.path),
              w.folders.filter (fun q => !underOrEqB p q)⟩ := by
  unfold Vault.trashEntry
  dsimp only
  rw [if_pos (List.elem_eq_true_of_mem hp)]

theorem childrenOf_direct {v : Vault} {p : Str} :
    ∀ k ∈ v.childrenOf p, isDirectChildB p k.path = true := by
  intro k hk
  unfold Vault.childrenOf at hk
  rw [List.mem_append] at hk
  rcases hk with hk | hk
  · rcases List.mem_map.mp hk with ⟨f, hf, rfl⟩
    exact (List.mem_filter.mp hf).2
  · rcases List.mem_map.mp hk with ⟨q, hq, rfl⟩
    exact (List.mem_filter.mp hq).2

theorem childrenOf_under {v : Vault} {p : Str} :
    ∀ k ∈ v.childrenOf p, underOrEqB p k.path = true := by
  intro k hk
  rcases isDirectChild_shape (childrenOf_direct k hk) with ⟨n, hn, _, _⟩
  rw [hn]
  exact underOrEqB_iff.mpr (Or.inr ⟨n, rfl⟩)

theorem childrenOf_file_mem {v : Vault} {p : Str} {g : VFile}
    (h : VEntry.file g ∈ v.childrenOf p) : g ∈ v.files := by
  unfold Vault.childrenOf at h
  rw [List.mem_append] at h
  rcases h with h | h
  · rcases List.mem_map.mp h with ⟨f, hf, he⟩
    injection he with h2
    subst h2
    exact (List.mem_filter.mp hf).1
  · rcases List.mem_map.mp h with ⟨q, _, he⟩
    exact VEntry.noConfusion he

theorem childrenOf_pairwise {v : Vault} {p : Str} (hWF : v.WF) :
    (v.childrenOf p).Pairwise (fun a b => underOrEqB a.path b.path = false) := by
  have hmap : ((v.childrenOf p).map VEntry.path).Sublist
      (v.files.map VFile.path ++ v.folders) := by
    unfold Vault.childrenOf
    rw [List.map_append, List.map_map, List.map_map]
    apply List.Sublist.append
    · have hc : (VEntry.path ∘ VEntry.file) = VFile.path := rfl
      rw [hc]
      exact (List.filter_sublist _).map _
    · have hc : (VEntry.path ∘ VEntry.folder) = id := rfl
      rw [hc, List.map_id]
      exact List.filter_sublist _
  have hnd : ((v.childrenOf p).map VEntry.path).Nodup := hmap.nodup hWF
  have hpw : (v.childrenOf p).Pairwise (fun a b => a.path ≠ b.path) :=
    List.pairwise_map.mp hnd
  refine hpw.imp_of_mem ?_
  intro a b ha hb hne
  exact directChildren_not_under (childrenOf_direct a ha) (childrenOf_direct b hb) hne

theorem trashEntry_folder_eq {w : Vault} {p : Str} {v2 : Vault}
    (h : w.trashEntry (.folder p) = some v2) :
    v2 = ⟨w.files.filter (fun x => !underOrEqB p x.path),
          w.folders.filter (fun q => !underOrEqB p q)⟩ := by
  unfold Vault.trashEntry at h
  dsimp only at h
  split at h
  · exact (Option.some_inj.mp h).symm
  · cases h

theorem delKidsWith_spec {f : Vault → Str → Bool × Vault} (Hf : ShrinkPreserve f) :
    ∀ (ks : List VEntry) (w : Vault),
      ((exVault (delKidsWith f w ks)).files.Sublist w.files) ∧
      ((exVault (delKidsWith f w ks)).folders.Sublist w.folders) ∧
      (∀ x ∈ w.files, (∀ k ∈ ks, underOrEqB k.path x.path = false) →
        x ∈ (exVault (delKidsWith f w ks)).files) ∧
      (∀ d ∈ w.folders, (∀ k ∈ ks, underOrEqB k.path d = false) →
        d ∈ (exVault (delKidsWith f w ks)).folders) := by
  intro ks
  induction ks with
  | nil =>
    intro w
    exact ⟨List.Sublist.refl _, List.Sublist.refl _, fun x hx _ => hx, fun d hd _ => hd⟩
  | cons k rest ih =>
    intro w
    cases k with
    | file g =>
      cases ht : w.trashEntry (.file g) with
      | none =>
        have he : delKidsWith f w (VEntry.file g :: rest) = .error w := by
          show (match w.trashEntry (VEntry.file g) with
            | some v2 => delKidsWith f v2 rest
            | none => Except.error w) = _
          rw [ht]
        rw [he]
        exact ⟨List.Sublist.refl _, List.Sublist.refl _, fun x hx _ => hx, fun d hd _ => hd⟩
      | some v2 =>
        have hv2 := trashEntry_file_eq ht
        have he : delKidsWith f w (VEntry.file g :: rest) = delKidsWith f v2 rest := by
          show (match w.trashEntry (VEntry.file g) with
            | some v2 => delKidsWith f v2 rest
            | none => Except.error w) = _
          rw [ht]
        rw [he]
        obtain ⟨s1, s2, p1, p2⟩ := ih v2
        subst hv2
        refine ⟨s1.trans (List.filter_sublist _), s2, ?_, ?_⟩
        · intro x hx hcond
          have hhead := hcond (VEntry.file g) (List.mem_cons_self _ _)
          have hne : x.path ≠ g.path := underOrEqB_eq_of_paths hhead
          refine p1 x ?_ (fun k hk => hcond k (List.mem_cons_of_mem _ hk))
          rw [List.mem_filter]
          exact ⟨hx, by simp [hne]⟩
        · intro d hd hcond
          exact p2 d hd (fun k hk => hcond k (List.mem_cons_of_mem _ hk))
    | folder q =>
      have he : delKidsWith f w (VEntry.folder q :: rest) = delKidsWith f ((f w q).2) rest := rfl
      rw [he]
      obtain ⟨hfa, hfb, hfc, hfd⟩ := Hf w q
      obtain ⟨s1, s2, p1, p2⟩ := ih ((f w q).2)
      refine ⟨s1.trans hfa, s2.trans hfb, ?_, ?_⟩
      · intro x hx hcond
        exact p1 x (hfc x hx (hcond (VEntry.folder q) (List.mem_cons_self _ _)))
          (fun k hk => hcond k (List.mem_cons_of_mem _ hk))
      · intro d hd hcond
        exact p2 d (hfd d hd (hcond (VEntry.folder q) (List.mem_cons_self _ _)))
          (fun k hk => hcond k (List.mem_cons_of_mem _ hk))

theorem delKidsWith_ok {f : Vault → Str → Bool × Vault} (Hf : ShrinkPreserve f) :
    ∀ (ks : List VEntry) (w : Vault),
      ks.Pairwise (fun a b => underOrEqB a.path b.path = false) →
      (∀ g : VFile, VEntry.file g ∈ ks → g ∈ w.files) →
      ∃ w2, delKidsWith f w ks = .ok w2 := by
  intro ks
  induction ks with
  | nil => intro w _ _; exact ⟨w, rfl⟩
  | cons k rest ih =>
    intro w hpw hfk
    rw [List.pairwise_cons] at hpw
    cases k with
    | file g =>
      have hg : g ∈ w.files := hfk g (List.mem_cons_self _ _)
      have ht := trashEntry_file_some hg
      have he : delKidsWith f w (VEntry.file g :: rest)
          = delKidsWith f ⟨w.files.filter (fun x => !(x.path == g.path)), w.folders⟩ rest := by
        show (match w.trashEntry (VEntry.file g) with
          | some v2 => delKidsWith f v2 rest
          | none => Except.error w) = _
        rw [ht]
      rw [he]
      apply ih _ hpw.2
      intro g2 hg2
      rw [List.mem_filter]
      refine ⟨hfk g2 (List.mem_cons_of_mem _ hg2), ?_⟩
      have hcond := hpw.1 (VEntry.file g2) hg2
      have hne : g2.path ≠ g.path := underOrEqB_eq_of_paths hcond
      simp [hne]
    | folder q =>
      have he : delKidsWith f w (VEntry.folder q :: rest) = delKidsWith f ((f w q).2) rest := rfl
      rw [he]
      apply ih _ hpw.2
      intro g2 hg2
      exact (Hf w q).2.2.1 g2 (hfk g2 (List.mem_cons_of_mem _ hg2))
        (hpw.1 (VEntry.file g2) hg2)

theorem delFolderGo_frame : ∀ (fuel : Nat) (v : Vault) (p : Str) (r : Bool),
    ((delFolderGo fuel v p r).2.files.Sublist v.files) ∧
    ((delFolderGo fuel v p r).2.folders.Sublist v.folders) ∧
    (∀ x ∈ v.files, underOrEqB p x.path = false → x ∈ (delFolderGo fuel v p r).2.files) ∧
    (∀ d ∈ v.folders, underOrEqB p d = false → d ∈ (delFolderGo fuel v p r).2.folders) := by
  intro fuel
  induction fuel with
  | zero =>
    intro v p r
    exact ⟨List.Sublist.refl _, List.Sublist.refl _, fun x hx _ => hx, fun d hd _ => hd⟩
  | succ fuel ih =>
    intro v p r
    have Hf : ShrinkPreserve (fun w q => delFolderGo fuel w q true) := fun w q => ih w q true
    cases hl : v.getAbstractFileByPath p with
    | none =>
      have he : delFolderGo (Nat.succ fuel) v p r = (false, v) := by
        unfold delFolderGo
        rw [hl]
      rw [he]
      exact ⟨List.Sublist.refl _, List.Sublist.refl _, fun x hx _ => hx, fun d hd _ => hd⟩
    | some e =>
      cases e with
      | file g =>
        have he : delFolderGo (Nat.succ fuel) v p r = (false, v) := by
          unfold delFolderGo
          rw [hl]
        rw [he]
        exact ⟨List.Sublist.refl _, List.Sublist.refl _, fun x hx _ => hx, fun d hd _ => hd⟩
      | folder q0 =>
        by_cases hk : (!(v.childrenOf p).isEmpty && !r) = true
        · have he : delFolderGo (Nat.succ fuel) v p r = (false, v) := by
            unfold delFolderGo
            rw [hl]
            dsimp only
            rw [if_pos hk]
          rw [he]
          exact ⟨List.Sublist.refl _, List.Sublist.refl _, fun x hx _ => hx, fun d hd _ => hd⟩
        · have hstep : delFolderGo (Nat.succ fuel) v p r =
              (match delKidsWith (fun w q => delFolderGo fuel w q true) v (v.childrenOf p) with
                | .error w => (false, w)
                | .ok w =>
                  match w.trashEntry (.folder p) with
                  | some w2 => (true, w2)
                  | none => (false, w)) := by
            simp only [delFolderGo]
            rw [hl]
            dsimp only
            rw [if_neg hk]
          obtain ⟨s1, s2, p1, p2⟩ := delKidsWith_spec Hf (v.childrenOf p) v
          have hkcond : ∀ x : Str, underOrEqB p x = false →
              ∀ k ∈ v.childrenOf p, underOrEqB k.path x = false := by
            intro x hx k hk2
            cases hu : underOrEqB k.path x with
            | false => rfl
            | true =>
              have := underOrEqB_trans (childrenOf_under k hk2) hu
              rw [this] at hx
              cases hx
          cases hcase : delKidsWith (fun w q => delFolderGo fuel w q true) v (v.childrenOf p) with
          | error w1 =>
            rw [hcase] at s1 s2 p1 p2
            dsimp only [exVault] at s1 s2 p1 p2
            rw [hstep, hcase]
            exact ⟨s1, s2,
              fun x hx hc => p1 x hx (fun k hk2 => hkcond x.path hc k hk2),
              fun d hd hc => p2 d hd (fun k hk2 => hkcond d hc k hk2)⟩
          | ok w1 =>
            rw [hcase] at s1 s2 p1 p2
            dsimp only [exVault] at s1 s2 p1 p2
            rw [hstep, hcase]
            dsimp only
            cases ht : w1.trashEntry (.folder p) with
            | none =>
              dsimp only
              exact ⟨s1, s2,
                fun x hx hc => p1 x hx (fun k hk2 => hkcond x.path hc k hk2),
                fun d hd hc => p2 d hd (fun k hk2 => hkcond d hc k hk2)⟩
            | some w2 =>
              dsimp only
              have hw2 := trashEntry_folder_eq ht
              subst hw2
              dsimp only
              refine ⟨(List.filter_sublist _).trans s1, (List.filter_sublist _).trans s2, ?_, ?_⟩
              · intro x hx hc
                rw [List.mem_filter]
                exact ⟨p1 x hx (fun k hk2 => hkcond x.path hc k hk2), by simp [hc]⟩
              · intro d hd hc
                rw [List.mem_filter]
                exact ⟨p2 d hd (fun k hk2 => hkcond d hc k hk2), by simp [hc]⟩

theorem delFolderGo_true (fuel : Nat) (v : Vault) (p : Str)
    (hWF : v.WF) (hp : v.getAbstractFileByPath p = some (.folder p)) :
    (delFolderGo (Nat.succ fuel) v p true).1 = true ∧
    (∀ q, underOrEqB p q = true →
      (delFolderGo (Nat.succ fuel) v p true).2.getAbstractFileByPath q = none) := by
  have Hf : ShrinkPreserve (fun w q => delFolderGo fuel w q true) :=
    fun w q => delFolderGo_frame fuel w q true
  have hpf : p ∈ v.folders := by
    unfold Vault.getAbstractFileByPath at hp
    cases hf : v.files.find? (fun f => f.path == p) with
    | some f =>
      rw [hf] at hp
      exact VEntry.noConfusion (Option.some_inj.mp hp)
    | none =>
      rw [hf] at hp
      cases hq : v.folders.find? (fun q => q == p) with
      | none => rw [hq] at hp; cases hp
      | some q2 =>
        rw [hq] at hp
        simp only [Option.map_some'] at hp
        have h2 : VEntry.folder q2 = VEntry.folder p := Option.some_inj.mp hp
        injection h2 with h3
        exact h3 ▸ List.mem_of_find?_eq_some hq
  obtain ⟨w1, hw1⟩ := delKidsWith_ok Hf (v.childrenOf p) v (childrenOf_pairwise hWF)
    (fun g hg => childrenOf_file_mem hg)
  have hstep : delFolderGo (Nat.succ fuel) v p true =
      (match w1.trashEntry (.folder p) with
        | some w2 => (true, w2)
        | none => (false, w1)) := by
    simp only [delFolderGo]
    rw [hp]
    dsimp only
    rw [if_neg (by simp), hw1]
  obtain ⟨_, _, _, p2⟩ := delKidsWith_spec Hf (v.childrenOf p) v
  have hp1 : p ∈ w1.folders := by
    have hcond : ∀ k ∈ v.childrenOf p, underOrEqB k.path p = false := by
      intro k hk
      cases hu : underOrEqB k.path p with
      | false => rfl
      | true =>
        have hlen := underOrEqB_length hu
        rcases isDirectChild_shape (childrenOf_direct k hk) with ⟨n, hn, _, _⟩
        rw [hn] at hlen
        rw [List.length_append, List.length_cons] at hlen
        omega
    have := p2 p hpf hcond
    rw [hw1] at this
    exact this
  have ht := trashEntry_folder_some hp1
  rw [hstep, ht]
  refine ⟨rfl, ?_⟩
  intro q hq
  unfold Vault.getAbstractFileByPath
  have hfile : (w1.files.filter (fun x => !underOrEqB p x.path)).find?
      (fun f => f.path == q) = none := by
    rw [List.find?_eq_none]
    intro x hx hbeq
    have hxq : x.path = q := by simpa using hbeq
    have hxf := (List.mem_filter.mp hx).2
    rw [hxq, hq] at hxf
    cases hxf
  have hfold : (w1.folders.filter (fun d => !underOrEqB p d)).find?
      (fun d => d == q) = none := by
    rw [List.find?_eq_none]
    intro d hd hbeq
    have hdq : d = q := by simpa using hbeq
    have hdf := (List.mem_filter.mp hd).2
    rw [hdq, hq] at hdf
    cases hdf
  rw [hfile, hfold]
  rfl

/-- C4: deleting a folder that has at least one child with the
recursive flag false fails and performs no vault mutation; with the
recursive flag true (on a well-formed vault) it succeeds and
afterwards neither the folder nor anything at or below its path
exists. -/
theorem deleteFolder_spec (v : Vault) (p : Str) :
    (v.getAbstractFileByPath p = some (.folder p) →
      v.childrenOf p ≠ [] →
      deleteFolder v p false = (false, v)) ∧
    (v.WF →
      v.getAbstractFileByPath p = some (.folder p) →
      (deleteFolder v p true).1 = true ∧
      (∀ q, underOrEqB p q = true →
        (deleteFolder v p true).2.getAbstractFileByPath q = none)) := by
  constructor
  · intro hp hkids
    show delFolderGo (v.folders.length + 1) v p false = (false, v)
    unfold delFolderGo
    rw [hp]
    dsimp only
    rw [if_pos]
    rw [Bool.and_eq_true]
    constructor
    · cases hk : (v.childrenOf p).isEmpty with
      | false => rfl
      | true => exact absurd (List.isEmpty_iff.mp hk) hkids
    · rfl
  · intro hWF hp
    exact delFolderGo_true v.folders.length v p hWF hp

theorem deleteFolder_spec_witness :
    deleteFolder (Vault.mk [⟨str "F/a.md", str "x", [], [], 0⟩] [str "F"]) (str "F") false
        = (false, Vault.mk [⟨str "F/a.md", str "x", [], [], 0⟩] [str "F"]) ∧
    (deleteFolder (Vault.mk [⟨str "F/a.md", str "x", [], [], 0⟩] [str "F"]) (str "F") true).1
        = true ∧
    (deleteFolder (Vault.mk [⟨str "F/a.md", str "x", [], [], 0⟩] [str "F"])
        (str "F") true).2.getAbstractFileByPath (str "F/a.md") = none := by
  refine ⟨?_, ?_, ?_⟩
  · exact (deleteFolder_spec (Vault.mk [⟨str "F/a.md", str "x", [], [], 0⟩] [str "F"])
      (str "F")).1 (by decide) (by decide)
  · exact ((deleteFolder_spec (Vault.mk [⟨str "F/a.md", str "x", [], [], 0⟩] [str "F"])
      (str "F")).2 (by unfold Vault.WF; decide) (by decide)).1
  · exact ((deleteFolder_spec (Vault.mk [⟨str "F/a.md", str "x", [], [], 0⟩] [str "F"])
      (str "F")).2 (by unfold Vault.WF; decide) (by decide)).2 (str "F/a.md") (by decide)

/-! ### C5 — relevance search -/

theorem mem_insertScored {x y : SearchRes} {l : List SearchRes} :
    x ∈ insertScored y l ↔ x = y ∨ x ∈ l := by
  induction l with
  | nil => simp [insertScored]
  | cons a t ih =>
    unfold insertScored
    split
    · simp [List.mem_cons]
    · simp only [List.mem_cons, ih]
      tauto

theorem mem_sortByScoreDesc {x : SearchRes} {l : List SearchRes} :
    x ∈ sortByScoreDesc l ↔ x ∈ l := by
  induction l with
  | nil => simp [sortByScoreDesc]
  | cons a t ih =>
    show x ∈ insertScored a (sortByScoreDesc t) ↔ _
    rw [mem_insertScored, ih, List.mem_cons]

theorem pairwise_insertScored {x : SearchRes} {l : List SearchRes}
    (hl : l.Pairwise (fun a b => b.score ≤ a.score)) :
    (insertScored x l).Pairwise (fun a b => b.score ≤ a.score) := by
  induction l with
  | nil => simp [insertScored]
  | cons a t ih =>
    rw [List.pairwise_cons] at hl
    unfold insertScored
    split
    · rename_i hle
      rw [List.pairwise_cons]
      refine ⟨?_, List.pairwise_cons.mpr hl⟩
      intro b hb
      rcases List.mem_cons.mp hb with rfl | hb
      · exact hle
      · exact le_trans (hl.1 b hb) hle
    · rename_i hgt
      have hx : x.score ≤ a.score := le_of_lt (not_le.mp hgt)
      rw [List.pairwise_cons]
      refine ⟨?_, ih hl.2⟩
      intro b hb
      rcases mem_insertScored.mp hb with rfl | hb
      · exact hx
      · exact hl.1 b hb

theorem pairwise_sortByScoreDesc (l : List SearchRes) :
    (sortByScoreDesc l).Pairwise (fun a b => b.score ≤ a.score) := by
  induction l with
  | nil => simp [sortByScoreDesc]
  | cons a t ih => exact pairwise_insertScored ih

/-- Stability: inserting keeps each equal-score class in order, since
the inserted element lands before every element of its own score
class. -/
theorem filter_insertScored (x : SearchRes) (l : List SearchRes) (s : Nat) :
    (insertScored x l).filter (fun r => r.score == s)
      = if x.score == s then x :: l.filter (fun r => r.score == s)
        else l.filter (fun r => r.score == s) := by
  induction l with
  | nil =>
    by_cases hx : (x.score == s) = true
    · simp [insertScored, List.filter_cons, hx]
    · simp [insertScored, List.filter_cons, hx]
  | cons a t ih =>
    unfold insertScored
    split
    · rename_i hle
      by_cases hx : (x.score == s) = true
      · simp [List.filter_cons, hx]
      · simp [List.filter_cons, hx]
    · rename_i hgt
      have hlt : x.score < a.score := not_le.mp hgt
      by_cases hx : (x.score == s) = true
      · have hs : x.score = s := by simpa using hx
        have ha : (a.score == s) = false := by
          have hne : a.score ≠ s := by omega
          simpa using hne
        simp [List.filter_cons, ha, ih, hx]
      · simp [List.filter_cons, ih, hx]

theorem filter_sortByScoreDesc (l : List SearchRes) (s : Nat) :
    (sortByScoreDesc l).filter (fun r => r.score == s)
      = l.filter (fun r => r.score == s) := by
  induction l with
  | nil => rfl
  | cons a t ih =>
    show (insertScored a (sortByScoreDesc t)).filter _ = _
    rw [filter_insertScored]
    by_cases h : (a.score == s) = true
    · simp [List.filter_cons, h, ih]
    · simp [List.filter_cons, h, ih]

theorem filter_take_append {α : Type} (l : List α) (n : Nat) (p : α → Bool) :
    (l.take n).filter p ++ (l.drop n).filter p = l.filter p := by
  conv_rhs => rw [← List.take_append_drop n l]
  rw [List.filter_append]

theorem foldl_add_eq {α : Type} (f : α → Nat) (ws : List α) (a : Nat) :
    ws.foldl (fun acc w => acc + f w) a = a + (ws.map f).sum := by
  induction ws generalizing a with
  | nil => simp
  | cons w t ih => simp [ih, Nat.add_assoc]

theorem noteScore_eq_sum (ws : List Str) (n : NoteRec) :
    noteScore ws n = (ws.map (tokenScore n)).sum := by
  unfold noteScore
  rw [foldl_add_eq]
  simp

theorem mem_scoredResults {idx : List NoteRec} {q : Str} {r : SearchRes} :
    r ∈ scoredResults idx q ↔
      ∃ n ∈ idx, 0 < noteScore (queryTokens q) n ∧
        r = ⟨n.path, n.title, noteScore (queryTokens q) n⟩ := by
  unfold scoredResults
  rw [List.mem_filterMap]
  constructor
  · rintro ⟨n, hn, hf⟩
    by_cases hs : 0 < noteScore (queryTokens q) n
    · refine ⟨n, hn, hs, ?_⟩
      simp only [hs, if_pos] at hf
      exact (Option.some_inj.mp hf).symm
    · simp [hs] at hf
  · rintro ⟨n, hn, hs, rfl⟩
    exact ⟨n, hn, by simp [hs]⟩

/-- C5: relevance search returns at most 5 results, in non-increasing
score order with ties kept in index insertion order (each equal-score
class of the output is a prefix of that class in the scored index
order), never includes a zero-score note, and scores additively over
the lowercase query tokens of length greater than 2 with the
10/8/5/2 weights encoded in `tokenScore`. -/
theorem searchNotesIndex_spec (idx : List NoteRec) (q : Str) :
    (searchNotesIndex idx q).length ≤ 5 ∧
    (searchNotesIndex idx q).Pairwise (fun a b => b.score ≤ a.score) ∧
    (∀ r ∈ searchNotesIndex idx q, r.score ≠ 0 ∧
      ∃ n ∈ idx, r = ⟨n.path, n.title, noteScore (queryTokens q) n⟩) ∧
    (∀ ws n, noteScore ws n = (ws.map (tokenScore n)).sum) ∧
    (∀ s : Nat, ∃ t, (searchNotesIndex idx q).filter (fun r => r.score == s) ++ t
        = (scoredResults idx q).filter (fun r => r.score == s)) := by
  refine ⟨?_, ?_, ?_, fun ws n => noteScore_eq_sum ws n, ?_⟩
  · unfold searchNotesIndex
    rw [List.length_take]
    exact min_le_left _ _
  · exact (pairwise_sortByScoreDesc _).sublist (List.take_sublist _ _)
  · intro r hr
    have hmem : r ∈ scoredResults idx q :=
      mem_sortByScoreDesc.mp ((List.take_sublist _ _).subset hr)
    obtain ⟨n, hn, hpos, rfl⟩ := mem_scoredResults.mp hmem
    exact ⟨by show noteScore (queryTokens q) n ≠ 0; omega, n, hn, rfl⟩
  · intro s
    refine ⟨((sortByScoreDesc (scoredResults idx q)).drop 5).filter (fun r => r.score == s), ?_⟩
    unfold searchNotesIndex
    rw [filter_take_append, filter_sortByScoreDesc]

theorem searchNotesIndex_spec_witness :
    (searchNotesIndex c5idx (str "apple")).length ≤ 5 ∧
    (⟨str "p1.md", str "apple pie", 10⟩ : SearchRes).score ≠ 0 ∧
    (∃ t, (searchNotesIndex c5idx (str "apple")).filter (fun r => r.score == 10) ++ t
        = (scoredResults c5idx (str "apple")).filter (fun r => r.score == 10)) := by
  have h := searchNotesIndex_spec c5idx (str "apple")
  exact ⟨h.1, (h.2.2.1 ⟨str "p1.md", str "apple pie", 10⟩ (by decide)).1, h.2.2.2.2 10⟩

/-! ### C6 — name resolution of move / rename / delete -/

/-- C6 counterexample: the same name `"Alpha"` resolves under
`deleteFile` (via the `.md`-appending step) but not under `renameFile`
(direct lookup only, no mutation), and resolves under `moveNote` (via
the substring step) but not under `deleteFile` (which has no substring
step) — so the three operations do not share one resolution chain. -/
theorem resolutionChains_differ :
    (deleteFile c6v1 (str "Alpha")).1 = true ∧
    renameFile c6v1 (str "Alpha") (str "Beta.md") = (false, c6v1) ∧
    (moveNote c6v2 (str "Alpha") (str "Dest")).1 = true ∧
    (deleteFile c6v2 (str "Alpha")).1 = false := by
  refine ⟨by decide, by decide, by decide, by decide⟩

/-- C6 (amended): the three operations use three different chains.
`renameFile` resolves by direct path lookup only; `deleteFile` falls
back to the path with `.md` appended (only when the name does not
already end in `.md`) and then to a case-insensitive exact basename
match, with no substring step; `moveNote` additionally falls back to a
case-insensitive substring match in either direction, and only fails
when that also misses. -/
theorem resolutionChains_spec (v : Vault) (name dst newName : Str) :
    (v.getAbstractFileByPath name = none → renameFile v name newName = (false, v)) ∧
    (v.getAbstractFileByPath name = none →
      (endsWithStr name (str ".md") = true ∨ v.getAbstractFileByPath (name ++ str ".md") = none) →
      v.getMarkdownFiles.find?
          (fun f => lowerStr (baseNameOf f.path) == lowerStr (stripMdSuffix name)) = none →
      deleteFile v name = (false, v)) ∧
    (v.getAbstractFileByPath name = none →
      v.getAbstractFileByPath (name ++ str ".md") = none →
      v.getMarkdownFiles.find?
          (fun f => lowerStr (baseNameOf f.path) == lowerStr (stripMdSuffix name)) = none →
      (∀ f, v.getMarkdownFiles.find? (fun f =>
          strHas (lowerStr (baseNameOf f.path)) (lowerStr (stripMdSuffix name)) ||
            strHas (lowerStr (stripMdSuffix name)) (lowerStr (baseNameOf f.path))) = some f →
        moveResolve v name = some (.file f)) ∧
      (v.getMarkdownFiles.find? (fun f =>
          strHas (lowerStr (baseNameOf f.path)) (lowerStr (stripMdSuffix name)) ||
            strHas (lowerStr (stripMdSuffix name)) (lowerStr (baseNameOf f.path))) = none →
        moveNote v name dst = (false, v))) := by
  refine ⟨fun h1 => ?_, fun h1 h2 h3 => ?_, fun h1 h2 h3 => ⟨fun f h4 => ?_, fun h4 => ?_⟩⟩
  · simp [renameFile, h1]
  · have hres : deleteResolve v name = none := by
      unfold deleteResolve
      rw [h1]
      rcases h2 with h2 | h2
      · simp only [h2, Bool.not_true, if_neg]
        simp [h3]
      · by_cases hmd : endsWithStr name (str ".md") = true
        · simp [hmd, h3]
        · simp [Bool.of_not_eq_true hmd, h2, h3]
    simp [deleteFile, hres]
  · simp [moveResolve, h1, h2, h3, h4]
  · have hres : moveResolve v name = none := by
      simp [moveResolve, h1, h2, h3, h4]
    simp [moveNote, hres]

theorem resolutionChains_spec_witness :
    renameFile c6v1 (str "Alpha") (str "Beta.md") = (false, c6v1) ∧
    deleteFile c6v2 (str "Alpha") = (false, c6v2) ∧
    moveResolve c6v2 (str "Alpha") = some (.file ⟨str "Alpha Beta.md", str "x", [], [], 0⟩) := by
  have h1 := (resolutionChains_spec c6v1 (str "Alpha") (str "Dest") (str "Beta.md")).1 (by decide)
  have h2 := (resolutionChains_spec c6v2 (str "Alpha") (str "Dest") (str "Beta.md")).2.1
    (by decide) (Or.inr (by decide)) (by decide)
  have h3 := ((resolutionChains_spec c6v2 (str "Alpha") (str "Dest") (str "Beta.md")).2.2
    (by decide) (by decide) (by decide)).1
    ⟨str "Alpha Beta.md", str "x", [], [], 0⟩ (by decide)
  exact ⟨h1, h2, h3⟩

/-! ### C7 — conversation summarization -/

theorem trimSummary_length (s : Str) : (trimSummary s).length ≤ 3003 := by
  unfold trimSummary
  split
  · have h3000 : (3000 : Nat) ≤ s.length := by omega
    simp [str, List.length_drop]
    omega
  · omega

/-- C7: for every conversation history of length at least the
threshold 15, `summarizeOlderMessages` leaves exactly the last-15
suffix as the history; the running summary is the old summary extended
by appending (with a separator) and, when the appended string exceeds
the 3000-character cap, truncated from the front (keeping a suffix
behind a `"..."` marker), so that its length stays bounded by 3003. -/
theorem summarizeOlderMessages_spec (st : ChatState)
    (h : 15 ≤ st.conversationHistory.length) :
    (summarizeOlderMessages st).conversationHistory
        = st.conversationHistory.drop (st.conversationHistory.length - 15) ∧
    (∃ app : Str,
      (st.conversationSummary = [] ∨ ∃ ext, app = st.conversationSummary ++ ext) ∧
      ((summarizeOlderMessages st).conversationSummary = app ∨
        (3000 < app.length ∧
          (summarizeOlderMessages st).conversationSummary
            = str "..." ++ app.drop (app.length - 3000)))) ∧
    (summarizeOlderMessages st).conversationSummary.length ≤ 3003 := by
  have hlt : ¬ st.conversationHistory.length < 15 := not_lt.mpr h
  have hsum : summarizeOlderMessages st =
      { conversationHistory :=
          st.conversationHistory.drop (st.conversationHistory.length - 15),
        conversationSummary := trimSummary (appendedSummary st.conversationSummary
          (buildNewSummary (st.conversationHistory.take (st.conversationHistory.length - 15)))),
        summaryCyclesRemaining := st.summaryCyclesRemaining - 1,
        isContextFull :=
          if st.summaryCyclesRemaining - 1 ≤ 0 then true else st.isContextFull } := by
    unfold summarizeOlderMessages
    rw [if_neg hlt]
  refine ⟨by rw [hsum], ?_, by rw [hsum]; exact trimSummary_length _⟩
  refine ⟨appendedSummary st.conversationSummary
    (buildNewSummary (st.conversationHistory.take (st.conversationHistory.length - 15))), ?_, ?_⟩
  · unfold appendedSummary
    split
    · rename_i he
      exact Or.inl (List.isEmpty_iff.mp he)
    · exact Or.inr ⟨str " || " ++ buildNewSummary _, by rw [List.append_assoc]⟩
  · rw [hsum]
    unfold trimSummary
    split
    · rename_i hgt
      exact Or.inr ⟨hgt, rfl⟩
    · exact Or.inl rfl

theorem summarizeOlderMessages_spec_witness :
    (summarizeOlderMessages stC7).conversationHistory
        = stC7.conversationHistory.drop (stC7.conversationHistory.length - 15) ∧
    (summarizeOlderMessages stC7).conversationSummary.length ≤ 3003 := by
  have h := summarizeOlderMessages_spec stC7 (by decide)
  exact ⟨h.1, h.2.2⟩

/-! ### C8 — daily usage gate -/

/-- C8: `checkDailyLimit` returns allowed with `remaining = -1` for
premium users; otherwise it allows exactly when the cached counter is
strictly below the free cap 9, with a never-negative remaining count;
and when not allowed, the send handler short-circuits to the static
limit message without contacting the remote service. -/
theorem checkDailyLimit_spec (s : UsageSettings) (msg : Str) (w : Bool) :
    (s.isPremiumUser = true → checkDailyLimit s = (true, -1)) ∧
    (s.isPremiumUser = false →
      ((checkDailyLimit s).1 = true ↔ s.messagesUsed < 9) ∧
      (checkDailyLimit s).2 = max 0 (9 - (s.messagesUsed : Int)) ∧
      0 ≤ (checkDailyLimit s).2) ∧
    ((checkDailyLimit s).1 = false → (jsTrim msg).isEmpty = false → w = false →
      sendGate msg w s = .limitBlocked (str "Daily limit reached") ∧
      contactsRemoteService (sendGate msg w s) = false) := by
  refine ⟨fun hp => by simp [checkDailyLimit, hp], fun hp => ?_, fun hna hmsg hw => ?_⟩
  · refine ⟨?_, ?_, ?_⟩
    · simp [checkDailyLimit, hp]
    · simp [checkDailyLimit, hp]
    · simp [checkDailyLimit, hp]
  · have hgate : sendGate msg w s = .limitBlocked (str "Daily limit reached") := by
      unfold sendGate
      rw [if_neg (by simp [hmsg]), hw, if_neg (by simp), hna]
      simp
    exact ⟨hgate, by rw [hgate]; rfl⟩

theorem checkDailyLimit_spec_witness :
    sendGate (str "hi") false ⟨false, 9⟩ = .limitBlocked (str "Daily limit reached") ∧
    contactsRemoteService (sendGate (str "hi") false ⟨false, 9⟩) = false :=
  (checkDailyLimit_spec ⟨false, 9⟩ (str "hi") false).2.2 (by decide) (by decide) rfl

/-! ### C9 — hybrid context selection -/

theorem flatten_decomp {α : Type} (f : α → Str) {x : α} {l : List α} (hx : x ∈ l) :
    ∃ a b, (l.map f).flatten = a ++ f x ++ b := by
  induction l with
  | nil => cases hx
  | cons y t ih =>
    rcases List.mem_cons.mp hx with rfl | hx
    · exact ⟨[], (t.map f).flatten, by simp⟩
    · obtain ⟨a, b, hab⟩ := ih hx
      exact ⟨f y ++ a, b, by simp [hab, List.append_assoc]⟩

theorem getTaggedNotesContext_ne (v : Vault) {mentions : List Str} (h : mentions ≠ []) :
    getTaggedNotesContext v mentions ≠ [] := by
  unfold getTaggedNotesContext
  rw [if_neg (by simpa [List.isEmpty_iff] using h)]
  intro hc
  exact List.noConfusion (congrArg (fun l : Str => l.take 1) hc)

/-- C9: the prompt's context sources are selected so that the
search-results section can be non-empty only when no mentions were
extracted; the recent-notes fallback can be non-empty only when the
mention, current-note and search sections are all empty; and when
mentions exist, each resolved mention's cleaned full content appears
inside the referenced-notes section while the search section is
empty — together with the fixed concatenation shape of the assembled
prompt. -/
theorem hybridContexts_spec (v : Vault) (idx : List NoteRec) (mentions : List Str)
    (active : Option VFile) (message : Str) (recentRaw : Str) :
    ((hybridContexts v idx mentions active message recentRaw).searchBased ≠ [] →
      mentions = []) ∧
    ((hybridContexts v idx mentions active message recentRaw).recent ≠ [] →
      (hybridContexts v idx mentions active message recentRaw).tagged = [] ∧
      (hybridContexts v idx mentions active message recentRaw).searchBased = [] ∧
      (hybridContexts v idx mentions active message recentRaw).current = []) ∧
    (mentions ≠ [] →
      (hybridContexts v idx mentions active message recentRaw).searchBased = [] ∧
      (hybridContexts v idx mentions active message recentRaw).tagged
          = getTaggedNotesContext v mentions ∧
      (∀ m f, m ∈ dedupKeepFirst mentions →
        findMentionFile v.getMarkdownFiles m = some f →
        ∃ a b, (hybridContexts v idx mentions active message recentRaw).tagged
            = a ++ cleanContent f.content ++ b)) ∧
    (∀ vs conv, enhancedPrompt vs (hybridContexts v idx mentions active message recentRaw)
        conv message
      = vs ++ ((hybridContexts v idx mentions active message recentRaw).tagged ++
          ((hybridContexts v idx mentions active message recentRaw).current ++
          ((hybridContexts v idx mentions active message recentRaw).searchBased ++
          (hybridContexts v idx mentions active message recentRaw).recent))) ++
          (conv ++ (str "\n\nCurrent Question: " ++ (message ++
            str "\n\nPlease provide a helpful, thoughtful response.")))) := by
  refine ⟨?_, ?_, ?_, ?_⟩
  · intro hs
    by_cases hm : mentions = []
    · exact hm
    · exfalso
      have ht : (getTaggedNotesContext v mentions).isEmpty = false := by
        cases he : (getTaggedNotesContext v mentions).isEmpty with
        | false => rfl
        | true => exact absurd (List.isEmpty_iff.mp he) (getTaggedNotesContext_ne v hm)
      apply hs
      show (if (getTaggedNotesContext v mentions).isEmpty then
          searchBasedContext v idx message else []) = []
      rw [ht]
      rfl
  · intro hr
    have hcond : ((getTaggedNotesContext v mentions).isEmpty &&
        (if (getTaggedNotesContext v mentions).isEmpty then
          searchBasedContext v idx message else []).isEmpty &&
        (getCurrentNoteContext active).isEmpty) = true := by
      cases hc : ((getTaggedNotesContext v mentions).isEmpty &&
          (if (getTaggedNotesContext v mentions).isEmpty then
            searchBasedContext v idx message else []).isEmpty &&
          (getCurrentNoteContext active).isEmpty) with
      | true => rfl
      | false =>
        exfalso
        apply hr
        show (if ((getTaggedNotesContext v mentions).isEmpty &&
            (if (getTaggedNotesContext v mentions).isEmpty then
              searchBasedContext v idx message else []).isEmpty &&
            (getCurrentNoteContext active).isEmpty) = true then recentRaw else []) = []
        rw [hc]
        rfl
    rw [Bool.and_eq_true, Bool.and_eq_true] at hcond
    exact ⟨List.isEmpty_iff.mp hcond.1.1, List.isEmpty_iff.mp hcond.1.2,
      List.isEmpty_iff.mp hcond.2⟩
  · intro hm
    have ht : (getTaggedNotesContext v mentions).isEmpty = false := by
      cases he : (getTaggedNotesContext v mentions).isEmpty with
      | false => rfl
      | true => exact absurd (List.isEmpty_iff.mp he) (getTaggedNotesContext_ne v hm)
    have hsb : (hybridContexts v idx mentions active message recentRaw).searchBased = [] := by
      show (if (getTaggedNotesContext v mentions).isEmpty then
          searchBasedContext v idx message else []) = []
      rw [ht]
      rfl
    refine ⟨hsb, rfl, ?_⟩
    intro m f hmem hf
    have hmb : mentionBlock v m =
        str "--- @" ++ baseNameOf f.path ++ str " (FULL CONTENT) ---\n" ++ tagLine f ++
          str "Content:\n" ++ cleanContent f.content ++ str "\n\n" := by
      unfold mentionBlock
      rw [hf]
    obtain ⟨a0, b0, hab⟩ := flatten_decomp (mentionBlock v) hmem
    refine ⟨str "\n\n=== SPECIFICALLY REFERENCED NOTES (FULL CONTENT) ===\n" ++
        str "User wants to see these notes: " ++
        joinSep (str ", ") (dedupKeepFirst mentions) ++ str "\n\n" ++ a0 ++
        (str "--- @" ++ baseNameOf f.path ++ str " (FULL CONTENT) ---\n" ++ tagLine f ++
          str "Content:\n"),
      str "\n\n" ++ b0 ++ str "=== END OF REFERENCED NOTES ===\n\n", ?_⟩
    show getTaggedNotesContext v mentions = _
    unfold getTaggedNotesContext
    rw [if_neg (by simpa [List.isEmpty_iff] using hm)]
    dsimp only
    rw [hab, hmb]
    simp [List.append_assoc]
  · intro vs conv
    show enhancedPrompt vs _ conv message = _
    unfold enhancedPrompt allNotesContext
    simp [List.append_assoc]

theorem hybridContexts_spec_witness :
    (hybridContexts c6v1 [] [str "Alpha"] none (str "q") (str "r")).searchBased = [] ∧
    (∃ a b, (hybridContexts c6v1 [] [str "Alpha"] none (str "q") (str "r")).tagged
        = a ++ cleanContent (str "x") ++ b) := by
  have h := (hybridContexts_spec c6v1 [] [str "Alpha"] none (str "q") (str "r")).2.2.1
    (by decide)
  refine ⟨h.1, ?_⟩
  obtain ⟨a, b, hab⟩ := h.2.2 (str "Alpha") ⟨str "Alpha.md", str "x", [], [], 0⟩
    (by decide) (by decide)
  exact ⟨a, b, hab⟩

/-! ### C10 — createFolder -/

theorem getAbstractFileByPath_file_iff {v : Vault} {q : Str} {f : VFile} :
    v.getAbstractFileByPath q = some (.file f) ↔
      v.files.find? (fun g => g.path == q) = some f := by
  unfold Vault.getAbstractFileByPath
  cases h : v.files.find? (fun g => g.path == q) with
  | some g => simp [h]
  | none =>
    simp only [h]
    constructor
    · intro hx
      rcases Option.map_eq_some'.mp hx with ⟨a, _, hfa⟩
      exact absurd hfa (by simp)
    · intro hx
      exact absurd hx (by simp)

theorem folders_contains_of_lookup {v : Vault} {q : Str}
    (hs : v.getAbstractFileByPath q ≠ none)
    (hnf : ∀ f, v.getAbstractFileByPath q ≠ some (.file f)) :
    v.folders.contains q = true := by
  unfold Vault.getAbstractFileByPath at hs hnf
  cases h : v.files.find? (fun g => g.path == q) with
  | some g => exact absurd (by rw [h]) (hnf g)
  | none =>
    rw [h] at hs
    cases h2 : v.folders.find? (fun r => r == q) with
    | none => rw [h2] at hs; simp at hs
    | some r =>
      have hr : r ∈ v.folders := List.mem_of_find?_eq_some h2
      have hrq : r = q := by simpa using List.find?_some h2
      subst hrq
      exact List.elem_eq_true_of_mem hr

theorem lookup_addFolder {v : Vault} {d q : Str} (hne : q ≠ d) :
    (Vault.mk v.files (v.folders ++ [d])).getAbstractFileByPath q
      = v.getAbstractFileByPath q := by
  unfold Vault.getAbstractFileByPath
  cases h : v.files.find? (fun g => g.path == q) with
  | some g => simp [h]
  | none =>
    simp only [h, List.find?_append]
    have hdq : (d == q) = false := by
      cases hb : (d == q) with
      | false => rfl
      | true =>
        have hdqe : d = q := by simpa using hb
        exact absurd hdqe.symm hne
    have hd : List.find? (fun r => r == q) [d] = none := by
      simp [List.find?, hdq]
    rw [hd, Option.or_none]

theorem dropWhile_all_neg {p : Char → Bool} {l : Str} (h : ∀ c ∈ l, p c = true) :
    l.dropWhile p = [] := by
  induction l with
  | nil => rfl
  | cons c t ih =>
    rw [List.dropWhile_cons, if_pos (h c (List.mem_cons_self c t))]
    exact ih (fun d hd => h d (List.mem_cons_of_mem c hd))

theorem contains_false_all {sep : Char} {l : Str} (h : l.contains sep = false) :
    ∀ c ∈ l, (c == sep) = false := by
  intro c hc
  cases hb : (c == sep) with
  | false => rfl
  | true =>
    have hcs : c = sep := by simpa using hb
    subst hcs
    rw [List.contains_eq_any_beq] at h
    have : l.any (fun x => c == x) = true := List.any_eq_true.mpr ⟨c, hc, by simp⟩
    rw [this] at h
    cases h

theorem contains_eq_false_of_all {l : Str} {sep : Char} (h : ∀ c ∈ l, c ≠ sep) :
    l.contains sep = false := by
  rw [List.contains_eq_any_beq]
  cases hb : l.any (fun x => sep == x) with
  | false => rfl
  | true =>
    rcases List.any_eq_true.mp hb with ⟨x, hx, hxq⟩
    have hxs : sep = x := by simpa using hxq
    exact absurd hxs.symm (h x hx)

theorem parentOf_append (cur part : Str) (h : part.contains '/' = false) :
    parentOf (cur ++ '/' :: part) = cur := by
  unfold parentOf
  rw [List.reverse_append]
  have hrev : ('/' :: part).reverse = part.reverse ++ ['/'] := by simp
  rw [hrev, List.append_assoc]
  have hall : ∀ c ∈ part.reverse, (fun c => !(c == '/')) c = true := by
    intro c hc
    have := contains_false_all h c (List.mem_reverse.mp hc)
    simp [this]
  rw [List.dropWhile_append, dropWhile_all_neg hall]
  simp [List.dropWhile_cons]

theorem parentOf_noSlash (part : Str) (h : part.contains '/' = false) :
    parentOf part = [] := by
  unfold parentOf
  have hall : ∀ c ∈ part.reverse, (fun c => !(c == '/')) c = true := by
    intro c hc
    have := contains_false_all h c (List.mem_reverse.mp hc)
    simp [this]
  rw [dropWhile_all_neg hall]
  rfl

theorem splitChar_chars (sep : Char) (s : Str) :
    ∀ w ∈ splitChar sep s, ∀ c2 ∈ w, c2 ≠ sep := by
  induction s with
  | nil =>
    intro w hw c2 hc2
    simp [splitChar] at hw
    subst hw
    simp at hc2
  | cons c rest ih =>
    intro w hw c2 hc2
    unfold splitChar at hw
    by_cases hc : (c == sep) = true
    · rw [if_pos hc] at hw
      rcases List.mem_cons.mp hw with rfl | hw
      · simp at hc2
      · exact ih w hw c2 hc2
    · rw [if_neg hc] at hw
      have hcs : c ≠ sep := fun he => hc (by simp [he])
      cases hr : splitChar sep rest with
      | nil =>
        rw [hr] at hw
        simp at hw
        subst hw
        have h1 : c2 = c := List.mem_singleton.mp hc2
        subst h1
        exact hcs
      | cons w0 ws =>
        rw [hr] at hw
        rcases List.mem_cons.mp hw with rfl | hw
        · rcases List.mem_cons.mp hc2 with rfl | hc2
          · exact hcs
          · exact ih w0 (by rw [hr]; exact List.mem_cons_self _ _) c2 hc2
        · exact ih w (by rw [hr]; exact List.mem_cons_of_mem _ hw) c2 hc2

theorem splitChar_no_sep (sep : Char) (s : Str) :
    ∀ w ∈ splitChar sep s, w.contains sep = false :=
  fun w hw => contains_eq_false_of_all (splitChar_chars sep s w hw)

theorem joinedPrefixes_longer {parts : List Str} (hps : ∀ part ∈ parts, part ≠ []) :
    ∀ cur, ∀ q ∈ joinedPrefixes cur parts, cur.length < q.length := by
  induction parts with
  | nil => intro cur q hq; simp [joinedPrefixes] at hq
  | cons part rest ih =>
    intro cur q hq
    unfold joinedPrefixes at hq
    have hpart : part ≠ [] := hps part (List.mem_cons_self _ _)
    have hlen2 : cur.length <
        (if cur.isEmpty then part else cur ++ '/' :: part).length := by
      by_cases hc : cur.isEmpty
      · have hcn : cur = [] := List.isEmpty_iff.mp hc
        subst hcn
        exact List.length_pos.mpr hpart
      · rw [if_neg hc]
        rw [List.length_append]
        simp only [List.length_cons]
        omega
    rcases List.mem_cons.mp hq with rfl | hq
    · exact hlen2
    · have := ih (fun p2 hp2 => hps p2 (List.mem_cons_of_mem _ hp2)) _ q hq
      omega

theorem joinedPrefixes_pairwise {parts : List Str} (hps : ∀ part ∈ parts, part ≠ []) :
    ∀ cur, (joinedPrefixes cur parts).Pairwise (fun a b => a.length < b.length) := by
  induction parts with
  | nil => intro cur; simp [joinedPrefixes]
  | cons part rest ih =>
    intro cur
    unfold joinedPrefixes
    rw [List.pairwise_cons]
    constructor
    · intro q hq
      exact joinedPrefixes_longer (fun p2 hp2 => hps p2 (List.mem_cons_of_mem _ hp2)) _ q hq
    · exact ih (fun p2 hp2 => hps p2 (List.mem_cons_of_mem _ hp2)) _

theorem createFolderLoop_spec {parts : List Str} :
    ∀ (v : Vault) (cur : Str),
    (cur = [] ∨ v.folders.contains cur = true) →
    (∀ part ∈ parts, part ≠ [] ∧ part.contains '/' = false) →
    (∀ q ∈ joinedPrefixes cur parts, ∀ f, v.getAbstractFileByPath q ≠ some (.file f)) →
    createFolderLoop v cur parts =
      (true,
        ⟨v.files, v.folders ++ (joinedPrefixes cur parts).filter
          (fun q => (v.getAbstractFileByPath q).isNone)⟩,
        (joinedPrefixes cur parts).filter
          (fun q => (v.getAbstractFileByPath q).isNone)) := by
  induction parts with
  | nil => intro v cur _ _ _; simp [createFolderLoop, joinedPrefixes]
  | cons part rest ih =>
    intro v cur hcur hps hnof
    have hps_rest : ∀ p2 ∈ rest, p2 ≠ [] ∧ p2.contains '/' = false :=
      fun p2 hp2 => hps p2 (List.mem_cons_of_mem _ hp2)
    have hps_ne : ∀ p2 ∈ rest, p2 ≠ [] := fun p2 hp2 => (hps_rest p2 hp2).1
    set cur2 := if cur.isEmpty then part else cur ++ '/' :: part with hcur2def
    have hjp : joinedPrefixes cur (part :: rest) = cur2 :: joinedPrefixes cur2 rest := rfl
    have hnof_head : ∀ f, v.getAbstractFileByPath cur2 ≠ some (.file f) := by
      intro f
      exact hnof cur2 (by rw [hjp]; exact List.mem_cons_self _ _) f
    have hnof_tail : ∀ q ∈ joinedPrefixes cur2 rest, ∀ f,
        v.getAbstractFileByPath q ≠ some (.file f) := by
      intro q hq f
      exact hnof q (by rw [hjp]; exact List.mem_cons_of_mem _ hq) f
    have hlonger : ∀ q ∈ joinedPrefixes cur2 rest, cur2.length < q.length :=
      joinedPrefixes_longer hps_ne cur2
    unfold createFolderLoop
    by_cases hex : (v.getAbstractFileByPath cur2).isSome = true
    · rw [if_pos hex]
      have hfol : v.folders.contains cur2 = true := by
        apply folders_contains_of_lookup _ hnof_head
        intro hn
        rw [hn] at hex
        cases hex
      have hrec := ih v cur2 (Or.inr hfol) hps_rest hnof_tail
      rw [hrec]
      have hnotNone : (v.getAbstractFileByPath cur2).isNone = false := by
        cases h : v.getAbstractFileByPath cur2 with
        | none => rw [h] at hex; cases hex
        | some e => rfl
      rw [hjp, List.filter_cons, hnotNone]
      simp
    · rw [if_neg hex]
      have hnone : v.getAbstractFileByPath cur2 = none := by
        cases h : v.getAbstractFileByPath cur2 with
        | none => rfl
        | some e => rw [h] at hex; simp at hex
      have hslash : part.contains '/' = false := (hps part (List.mem_cons_self _ _)).2
      have hparent : parentOf cur2 = cur := by
        by_cases hc : cur.isEmpty
        · have hcn : cur = [] := List.isEmpty_iff.mp hc
        -- cur2 = part
          rw [hcur2def, if_pos hc, hcn]
          exact parentOf_noSlash part hslash
        · rw [hcur2def, if_neg hc]
          exact parentOf_append cur part hslash
      have hprim : v.createFolderPrim cur2 = .ok ⟨v.files, v.folders ++ [cur2]⟩ := by
        unfold Vault.createFolderPrim
        rw [hnone]
        have hcond : (parentOf cur2 == [] || v.folders.contains (parentOf cur2)) = true := by
          rw [hparent]
          rcases hcur with rfl | hcur
          · rfl
          · rw [hcur, Bool.or_true]
        simp only [Option.isSome_none, Bool.false_eq_true, if_false, hcond, if_true]
      rw [hprim]
      dsimp only
      set v2 : Vault := ⟨v.files, v.folders ++ [cur2]⟩ with hv2
      have hcontains2 : v2.folders.contains cur2 = true := by
        apply List.elem_eq_true_of_mem
        simp [hv2]
      have hlookup2 : ∀ q ∈ joinedPrefixes cur2 rest,
          v2.getAbstractFileByPath q = v.getAbstractFileByPath q := by
        intro q hq
        apply lookup_addFolder
        intro h
        have := hlonger q hq
        rw [h] at this
        omega
      have hnof2 : ∀ q ∈ joinedPrefixes cur2 rest, ∀ f,
          v2.getAbstractFileByPath q ≠ some (.file f) := by
        intro q hq f
        rw [hlookup2 q hq]
        exact hnof_tail q hq f
      have hrec := ih v2 cur2 (Or.inr hcontains2) hps_rest hnof2
      rw [hrec]
      have hfilter : (joinedPrefixes cur2 rest).filter
            (fun q => (v2.getAbstractFileByPath q).isNone)
          = (joinedPrefixes cur2 rest).filter
            (fun q => (v.getAbstractFileByPath q).isNone) :=
        List.filter_congr (fun q hq => by rw [hlookup2 q hq])
      have hisNone : (v.getAbstractFileByPath cur2).isNone = true := by rw [hnone]; rfl
      rw [hjp, List.filter_cons, hisNone, hfilter, hv2]
      simp [List.append_assoc]
      rw [hcur2def]
      by_cases hc : cur = []
      · rw [if_pos hc, if_pos (by rw [hc]; rfl)]
      · have hc2 : ¬ (List.isEmpty cur = true) := fun hh => hc (List.isEmpty_iff.mp hh)
        rw [if_neg hc, if_neg hc2]

/-- C10: `createFolder` is idempotent and fail-safe: an existing
folder yields success with no mutation; an existing non-folder file
yields failure with no mutation; and on a fresh nested path (with
well-formed segments and no ancestor shadowed by a file) it succeeds,
creating exactly the missing ancestors in root-to-leaf order, after
which every ancestor of the path exists as a folder. -/
theorem createFolder_spec (v : Vault) (p : Str) :
    (∀ q, v.getAbstractFileByPath (cleanFolderPath p) = some (.folder q) →
      createFolder v p = (true, v, [])) ∧
    (cleanFolderPath p ≠ [] →
      ∀ f, v.getAbstractFileByPath (cleanFolderPath p) = some (.file f) →
      createFolder v p = (false, v, [])) ∧
    (cleanFolderPath p ≠ [] →
      v.getAbstractFileByPath (cleanFolderPath p) = none →
      (∀ part ∈ splitChar '/' (cleanFolderPath p), part ≠ []) →
      (∀ q ∈ prefixesOf (cleanFolderPath p), ∀ f,
        v.getAbstractFileByPath q ≠ some (.file f)) →
      (createFolder v p).1 = true ∧
      (createFolder v p).2.1.files = v.files ∧
      (createFolder v p).2.2 = (prefixesOf (cleanFolderPath p)).filter
          (fun q => (v.getAbstractFileByPath q).isNone) ∧
      (createFolder v p).2.1.folders = v.folders ++ (createFolder v p).2.2 ∧
      (∀ q ∈ prefixesOf (cleanFolderPath p),
        (createFolder v p).2.1.folders.contains q = true) ∧
      (createFolder v p).2.2.Pairwise (fun a b => a.length < b.length)) := by
  refine ⟨fun q hq => ?_, fun hne0 f hf => ?_, fun hne hnone hseg hnof => ?_⟩
  · unfold createFolder
    by_cases hc : (cleanFolderPath p).isEmpty
    · rw [if_pos hc]
    · rw [if_neg hc, hq]
  · have hc : (cleanFolderPath p).isEmpty = false := by
      cases h : (cleanFolderPath p).isEmpty with
      | false => rfl
      | true => exact absurd (List.isEmpty_iff.mp h) hne0
    unfold createFolder
    rw [if_neg (by rw [hc]; exact Bool.false_ne_true), hf]
  · have hc : (cleanFolderPath p).isEmpty = false := by
      cases h : (cleanFolderPath p).isEmpty with
      | false => rfl
      | true => exact absurd (List.isEmpty_iff.mp h) hne
    have hps : ∀ part ∈ splitChar '/' (cleanFolderPath p),
        part ≠ [] ∧ part.contains '/' = false :=
      fun part hp => ⟨hseg part hp, splitChar_no_sep '/' _ part hp⟩
    have hloop := createFolderLoop_spec v [] (Or.inl rfl) hps hnof
    have hcf : createFolder v p = (true,
        ⟨v.files, v.folders ++ (prefixesOf (cleanFolderPath p)).filter
          (fun q => (v.getAbstractFileByPath q).isNone)⟩,
        (prefixesOf (cleanFolderPath p)).filter
          (fun q => (v.getAbstractFileByPath q).isNone)) := by
      unfold createFolder
      rw [if_neg (by rw [hc]; exact Bool.false_ne_true), hnone]
      exact hloop
    rw [hcf]
    refine ⟨rfl, rfl, rfl, rfl, ?_, ?_⟩
    · intro q hq
      apply List.elem_eq_true_of_mem
      rw [List.mem_append]
      cases hlq : v.getAbstractFileByPath q with
      | none =>
        right
        rw [List.mem_filter]
        exact ⟨hq, by rw [hlq]; rfl⟩
      | some e =>
        left
        have hcontains : v.folders.contains q = true := by
          apply folders_contains_of_lookup (by rw [hlq]; exact fun h => Option.noConfusion h)
          exact hnof q hq
        have := List.contains_eq_any_beq v.folders q ▸ hcontains
        rcases List.any_eq_true.mp this with ⟨x, hx, hxq⟩
        have : q = x := by simpa using hxq
        rw [this]
        exact hx
    · exact (joinedPrefixes_pairwise (fun part hp => (hps part hp).1) []).filter _

theorem createFolder_spec_witness :
    createFolder (Vault.mk [⟨str "A", str "x", [], [], 0⟩] [str "B"]) (str "B")
        = (true, Vault.mk [⟨str "A", str "x", [], [], 0⟩] [str "B"], []) ∧
    createFolder (Vault.mk [⟨str "A", str "x", [], [], 0⟩] [str "B"]) (str "A")
        = (false, Vault.mk [⟨str "A", str "x", [], [], 0⟩] [str "B"], []) ∧
    (createFolder (Vault.mk [] []) (str "A/B")).1 = true ∧
    (∀ q ∈ prefixesOf (cleanFolderPath (str "A/B")),
      (createFolder (Vault.mk [] []) (str "A/B")).2.1.folders.contains q = true) := by
  have va : Vault := Vault.mk [⟨str "A", str "x", [], [], 0⟩] [str "B"]
  refine ⟨?_, ?_, ?_, ?_⟩
  · exact (createFolder_spec (Vault.mk [⟨str "A", str "x", [], [], 0⟩] [str "B"]) (str "B")).1
      (str "B") (by decide)
  · exact (createFolder_spec (Vault.mk [⟨str "A", str "x", [], [], 0⟩] [str "B"]) (str "A")).2.1
      (by decide) ⟨str "A", str "x", [], [], 0⟩ (by decide)
  · exact ((createFolder_spec (Vault.mk [] []) (str "A/B")).2.2 (by decide) (by decide)
      (by decide)
      (by intro q hq f h; simp [Vault.getAbstractFileByPath, List.find?] at h)).1
  · exact ((createFolder_spec (Vault.mk [] []) (str "A/B")).2.2 (by decide) (by decide)
      (by decide)
      (by intro q hq f h; simp [Vault.getAbstractFileByPath, List.find?] at h)).2.2.2.2.1

end Athena
